import Mathlib

/-!
Verification of the interview-assistant core against its specification.

Python strings are modelled as `List Char`; `str` methods and the regular
expressions used by the code are translated into executable Lean functions.
Case mapping (`str.upper`/`str.lower`, `re.IGNORECASE`) is modelled with
`Char.toUpper`/`Char.toLower`, which agree with Python on the ASCII range.
-/

/-- Whitespace characters, as recognised by Python's `str.strip`, `str.split`
and the regex class `\s` (the common Unicode whitespace set). -/
def pyIsSpace (c : Char) : Bool :=
  c ∈ [' ', '\t', '\n', '\r', '\x0b', '\x0c', '\x1c', '\x1d', '\x1e', '\x1f',
       '\x85', '\xa0', ' ', ' ', ' ', ' ', ' ', ' ',
       ' ', ' ', ' ', ' ', ' ', ' ', ' ',
       ' ', ' ', ' ', '　']

/-- Word characters, as in the regex class `\w` (ASCII scope). -/
def isWordChar (c : Char) : Bool :=
  ('a' ≤ c && c ≤ 'z') || ('A' ≤ c && c ≤ 'Z') || ('0' ≤ c && c ≤ '9') || c = '_'

/-- Python `str.upper` (ASCII scope). -/
def pyUpper (s : List Char) : List Char := s.map Char.toUpper

/-- Python `str.lower` (ASCII scope). -/
def pyLower (s : List Char) : List Char := s.map Char.toLower

/-- Python substring test `u in s`. -/
def subOf : List Char → List Char → Bool
  | u, s =>
    u.isPrefixOf s ||
      match s with
      | [] => false
      | _ :: t => subOf u t

/-- Python `s.find(u)`: index of the first occurrence of `u` in `s`, if any. -/
def pyFind : List Char → List Char → Option Nat
  | u, s =>
    if u.isPrefixOf s then some 0
    else
      match s with
      | [] => none
      | _ :: t => (pyFind u t).map (· + 1)

/-- Python `s.replace(old, new)`: replace all non-overlapping occurrences of
`old` in `s` with `new`, scanning left to right (for non-empty `old`). -/
def pyReplace (s old new : List Char) : List Char :=
  match s with
  | [] => []
  | c :: rest =>
    if old ≠ [] ∧ old.isPrefixOf (c :: rest) then
      new ++ pyReplace ((c :: rest).drop old.length) old new
    else
      c :: pyReplace rest old new
termination_by s.length
decreasing_by
  · rename_i hpre
    simp only [List.length_cons, List.length_drop]
    have : old.length ≠ 0 := by
      intro h0
      exact hpre.1 (List.length_eq_zero.mp h0)
    omega
  · simp

/-- Python `str.lstrip` (no argument): drop leading whitespace. -/
def pyLstrip (s : List Char) : List Char := s.dropWhile pyIsSpace

/-- Python `str.rstrip` (no argument): drop trailing whitespace. -/
def pyRstrip : List Char → List Char
  | [] => []
  | c :: rest =>
    match pyRstrip rest with
    | [] => if pyIsSpace c then [] else [c]
    | r => c :: r

/-- Python `str.strip` (no argument). -/
def pyStrip (s : List Char) : List Char := pyRstrip (pyLstrip s)

/-- Helper of `pySplitWs`: `acc` is the current word, reversed. -/
def pySplitWsAux : List Char → List Char → List (List Char)
  | acc, [] => if acc = [] then [] else [acc.reverse]
  | acc, c :: rest =>
    if pyIsSpace c then
      if acc = [] then pySplitWsAux [] rest
      else acc.reverse :: pySplitWsAux [] rest
    else pySplitWsAux (c :: acc) rest

/-- Python `str.split()` (no argument): split on whitespace runs, dropping
empty pieces. -/
def pySplitWs (s : List Char) : List (List Char) := pySplitWsAux [] s

/-- Python `sep.join(pieces)`. -/
def pyJoin (sep : List Char) : List (List Char) → List Char
  | [] => []
  | [x] => x
  | x :: xs => x ++ sep ++ pyJoin sep xs

/-! ## `utils/helpers.py` -/

/-- The alternatives of the eight skill regex patterns of
`extract_skills_from_text`, in source order. -/
def skillPatterns : List (List (List Char)) :=
  [ ["Python".toList, "Java".toList, "JavaScript".toList, "C++".toList, "C#".toList,
     "Go".toList, "Rust".toList, "Swift".toList, "Kotlin".toList, "TypeScript".toList],
    ["React".toList, "Angular".toList, "Vue.js".toList, "Node.js".toList, "Express".toList,
     "Django".toList, "Flask".toList, "Spring".toList, "Laravel".toList],
    ["AWS".toList, "Azure".toList, "GCP".toList, "Docker".toList, "Kubernetes".toList,
     "Jenkins".toList, "Git".toList, "GitHub".toList, "GitLab".toList],
    ["SQL".toList, "MySQL".toList, "PostgreSQL".toList, "MongoDB".toList, "Redis".toList,
     "Elasticsearch".toList, "Cassandra".toList],
    ["Machine Learning".toList, "AI".toList, "Deep Learning".toList, "TensorFlow".toList,
     "PyTorch".toList, "Scikit-learn".toList],
    ["HTML".toList, "CSS".toList, "Bootstrap".toList, "Sass".toList, "Less".toList,
     "Webpack".toList, "Babel".toList, "npm".toList, "yarn".toList],
    ["Linux".toList, "Unix".toList, "Windows".toList, "macOS".toList, "Shell".toList,
     "Bash".toList, "PowerShell".toList],
    ["Agile".toList, "Scrum".toList, "Kanban".toList, "JIRA".toList, "Confluence".toList,
     "Slack".toList, "Teams".toList] ]

/-- Case-insensitive equality of equal-length strings (`re.IGNORECASE`). -/
def ciEq : List Char → List Char → Bool
  | [], [] => true
  | a :: as, b :: bs => (a.toUpper = b.toUpper) && ciEq as bs
  | _, _ => false

/-- Word-ness of an optional character; positions outside the string count as
non-word, which is how `\b` treats the ends of the string. -/
def optWord : Option Char → Bool
  | none => false
  | some c => isWordChar c

/-- Does the alternative `k` match at the front of `s`, with `p` the character
preceding this position?  This is `\bk\b` at one position: a case-insensitive
character match plus a word-boundary test on both sides. -/
def kwMatch (p : Option Char) (k s : List Char) : Bool :=
  ciEq k (s.take k.length) &&
  (optWord p != optWord k.head?) &&
  (optWord k.getLast? != optWord s[k.length]?)

/-- First alternative (in pattern order) matching at the front of `s`;
regex alternation tries alternatives left to right. -/
def firstKwMatch (kws : List (List Char)) (p : Option Char) (s : List Char) :
    Option (List Char) :=
  match kws with
  | [] => none
  | k :: rest => if kwMatch p k s then some k else firstKwMatch rest p s

/-- `re.findall` for one alternation pattern `\b(?:k₁|…|kₙ)\b`: scan left to
right, at each position take the first matching alternative, emit the matched
slice (in its original case) and continue after it; otherwise advance one
character.  `p` is the character before the current position. -/
def reFindAll (kws : List (List Char)) : Option Char → List Char → List (List Char)
  | _, [] => []
  | p, c :: rest =>
    match firstKwMatch kws p (c :: rest) with
    | some k =>
      ((c :: rest).take k.length) ::
        reFindAll kws ((c :: rest).take k.length).getLast? (rest.drop (k.length - 1))
    | none => reFindAll kws (some c) rest
termination_by _ s => s.length
decreasing_by
  · simp only [List.length_cons, List.length_drop]
    omega
  · simp

/-- `extract_skills_from_text`: all matches of the eight patterns; the result
set (Python builds a `set` of the matched strings). -/
def extract_skills_from_text (text : List Char) : Finset (List Char) :=
  ((skillPatterns.map (fun kws => reFindAll kws none text)).flatten).toFinset

def seniorKeywords : List (List Char) :=
  ["senior".toList, "lead".toList, "principal".toList, "architect".toList,
   "manager".toList, "director".toList, "10+ years".toList, "15+ years".toList,
   "20+ years".toList, "extensive experience".toList, "team lead".toList,
   "technical lead".toList, "mentor".toList, "coach".toList]

def midKeywords : List (List Char) :=
  ["mid-level".toList, "intermediate".toList, "3+ years".toList, "5+ years".toList,
   "7+ years".toList, "experienced".toList, "proficient".toList, "skilled".toList]

def juniorKeywords : List (List Char) :=
  ["junior".toList, "entry-level".toList, "graduate".toList, "intern".toList,
   "0-2 years".toList, "recent graduate".toList, "new graduate".toList,
   "student".toList]

/-- `sum(1 for keyword in kws if keyword in text_lower)`. -/
def countKeywords (kws : List (List Char)) (textLower : List Char) : Nat :=
  (kws.filter (fun k => subOf k textLower)).length

/-- `estimate_experience_level`: counts the seniority keywords occurring in
the lowercased text and compares the three counts. -/
def estimate_experience_level (text : List Char) : List Char :=
  if countKeywords seniorKeywords (pyLower text) > countKeywords midKeywords (pyLower text) ∧
      countKeywords seniorKeywords (pyLower text) > countKeywords juniorKeywords (pyLower text)
  then "Senior".toList
  else if countKeywords midKeywords (pyLower text) > countKeywords juniorKeywords (pyLower text)
  then "Mid-level".toList
  else "Junior".toList

/-- The `experience_scores` dict of `calculate_resume_score`. -/
def experienceScores : List (List Char × ℚ) :=
  [("Junior".toList, 30), ("Mid-level".toList, 60), ("Senior".toList, 90)]

/-- Python `dict.get(key, default)` on an association list. -/
def dictGetD (tbl : List (List Char × ℚ)) (k : List Char) (dflt : ℚ) : ℚ :=
  match tbl.find? (fun e => e.1 = k) with
  | some e => e.2
  | none => dflt

/-- The section names probed by `calculate_resume_score`. -/
def resumeSections : List (List Char) :=
  ["experience".toList, "education".toList, "skills".toList, "projects".toList]

/-- The four scores returned by `calculate_resume_score` (Python numbers are
modelled as exact rationals). -/
structure ResumeScores where
  skills_diversity : ℚ
  experience_level : ℚ
  completeness : ℚ
  overall : ℚ

/-- `min(len(skills) * 5, 100)` over the skill set of a text. -/
def skillsDiversityScore (text : List Char) : ℚ :=
  ((min ((extract_skills_from_text text).card * 5) 100 : ℕ) : ℚ)

/-- The number of the four section names occurring in the lowercased text. -/
def sectionCount (text : List Char) : ℕ :=
  (resumeSections.filter (fun sec => subOf (pyLower sec) (pyLower text))).length

/-- `calculate_resume_score`. -/
def calculate_resume_score (text : List Char) : ResumeScores :=
  { skills_diversity := skillsDiversityScore text
    experience_level := dictGetD experienceScores (estimate_experience_level text) 50
    completeness := ((sectionCount text : ℚ) / (resumeSections.length : ℚ)) * 100
    overall := (skillsDiversityScore text +
        dictGetD experienceScores (estimate_experience_level text) 50 +
        ((sectionCount text : ℚ) / (resumeSections.length : ℚ)) * 100) / 3 }

/-! ## `core/question_generator.py`: `_extract_difficulty_and_clean` -/

/-- Python `s.find(u)` with the `-1` convention for "not found". -/
def pyFindNeg (u s : List Char) : Int :=
  match pyFind u s with
  | some i => (i : Int)
  | none => -1

/-- The unconditional cleanup at the end of `_extract_difficulty_and_clean`:
remove all remaining square brackets, strip, and collapse internal whitespace
runs to single spaces (`' '.join(s.split())`). -/
def finalClean (r : List Char) : List Char :=
  pyJoin " ".toList
    (pySplitWs (pyStrip (pyReplace (pyReplace r "[".toList []) "]".toList [])))

/-- `_extract_difficulty_and_clean`: first look for a bracketed marker
(case-insensitively, priority `[EASY]`, `[HARD]`, `[MEDIUM]`), stripping only
the all-uppercase and all-lowercase spellings of the matched token; otherwise
look for the bare keyword within the first 20 characters; otherwise fail. -/
def extract_difficulty_and_clean (question_text : List Char) :
    Option (List Char) × Option (List Char) :=
  if subOf "[EASY]".toList (pyUpper question_text) then
    (some "Easy".toList, some (finalClean (pyStrip
      (pyReplace (pyReplace question_text "[EASY]".toList []) "[easy]".toList []))))
  else if subOf "[HARD]".toList (pyUpper question_text) then
    (some "Hard".toList, some (finalClean (pyStrip
      (pyReplace (pyReplace question_text "[HARD]".toList []) "[hard]".toList []))))
  else if subOf "[MEDIUM]".toList (pyUpper question_text) then
    (some "Medium".toList, some (finalClean (pyStrip
      (pyReplace (pyReplace question_text "[MEDIUM]".toList []) "[medium]".toList []))))
  else if subOf "EASY".toList (pyUpper question_text) &&
      pyFindNeg "EASY".toList (pyUpper question_text) < 20 then
    (some "Easy".toList, some (finalClean (pyStrip
      (pyReplace (pyReplace question_text "EASY".toList []) "easy".toList []))))
  else if subOf "HARD".toList (pyUpper question_text) &&
      pyFindNeg "HARD".toList (pyUpper question_text) < 20 then
    (some "Hard".toList, some (finalClean (pyStrip
      (pyReplace (pyReplace question_text "HARD".toList []) "hard".toList []))))
  else if subOf "MEDIUM".toList (pyUpper question_text) &&
      pyFindNeg "MEDIUM".toList (pyUpper question_text) < 20 then
    (some "Medium".toList, some (finalClean (pyStrip
      (pyReplace (pyReplace question_text "MEDIUM".toList []) "medium".toList []))))
  else (none, none)

/-- The three difficulty levels handled by the classifier. -/
inductive DifficultyKind
  | easy
  | medium
  | hard
deriving DecidableEq

/-- The all-uppercase bracketed marker of a difficulty level. -/
def markerUpper : DifficultyKind → List Char
  | .easy => "[EASY]".toList
  | .hard => "[HARD]".toList
  | .medium => "[MEDIUM]".toList

/-- The all-lowercase bracketed marker of a difficulty level. -/
def markerLower : DifficultyKind → List Char
  | .easy => "[easy]".toList
  | .hard => "[hard]".toList
  | .medium => "[medium]".toList

/-- The label string returned for a difficulty level. -/
def difficultyLabel : DifficultyKind → List Char
  | .easy => "Easy".toList
  | .hard => "Hard".toList
  | .medium => "Medium".toList

/-! ## `_get_format_example` and `_create_question_prompt` -/

/-- The per-category block of `_get_format_example`: upper-cased category
header followed by three numbered lines with fixed difficulty markers. -/
def formatExampleBlock (category : List Char) : List Char :=
  pyUpper category ++
    ":\n1. [EASY] [Question text]\n2. [MEDIUM] [Question text]\n3. [HARD] [Question text]".toList

/-- `_get_format_example`: one block per selected category, joined by blank
lines.  The difficulty filter is not an input of this function. -/
def get_format_example (categories : List (List Char)) : List Char :=
  pyJoin "\n\n".toList (categories.map formatExampleBlock)

/-- Literal pieces of the `_create_question_prompt` f-string, in order. -/
def promptSeg1 : List Char :=
  ("\n            Given the following resume, perform ALL of the following tasks:\n    \n   "  ++
   "         1. Extract and return these key insights in JSON:\n                    - techno"  ++
   "logies (skills, tools, programming languages, frameworks)\n                    - compani"  ++
   "es (with durations, e.g., company name and years/months worked)\n                    - t"  ++
   "otal_years_experience (if possible)\n                    - education (degree, institutio"  ++
   "n, graduation year)\n                    - certifications (if any)\n                    "  ++
   "- major_projects (if any)\n            2. Generate exactly ").toList

def promptSeg2 : List Char :=
  (" relevant interview questions for a technical role, using:\n                    - Diffic"  ++
   "ulty levels: ").toList

def promptSeg3 : List Char :=
  "\n                    - Categories: ".toList

def promptSeg4 : List Char :=
  ("\n                    - Make questions specific to the candidate's background and experi"  ++
   "ence\n                    - Use this format with category headers:\n            ").toList

def promptSeg5 : List Char :=
  ("\n            3. Provide 3 actionable suggestions to make this resume more ATS (Applican"  ++
   "t Tracking System) friendly. Focus on missing keywords, formatting, clarity, and complet"  ++
   "eness.\n    \n            Resume Content:\n            ").toList

def promptSeg6 : List Char :=
  ("\n    \n            Return your answer in the following JSON structure:\n            \x7b"  ++
   "\n                \"insights\": \x7b\n                    \"technologies\": [...],\n    "  ++
   "                \"companies\": [\x7b\"name\": \"...\", \"duration\": \"...\"\x7d],\n    "  ++
   "                \"total_years_experience\": ...,\n                    \"education\": [\x7b"  ++
   "\"degree\": \"...\", \"institution\": \"...\", \"year\": \"...\"\x7d],\n                "  ++
   "    \"certifications\": [...],\n                    \"major_projects\": [...]\n         "  ++
   "       \x7d,\n                \"questions\": [\n                    \x7b\"category\": \""  ++
   "...\", \"difficulty\": \"...\", \"question\": \"...\"\x7d,\n                    ...\n   "  ++
   "             ],\n                \"ats_suggestions\": [\"...\", \"...\", \"...\"]\n     "  ++
   "       \x7d\n    \n            CRITICAL RULES:\n            - Return ONLY the JSON objec"  ++
   "t, no explanations or markdown.\n            - For questions, use the specified categori"  ++
   "es and difficulty levels.\n            - For insights, fill as much as possible from the"  ++
   " resume.\n            - For ATS suggestions, be specific and actionable.\n            ").toList

/-- `_create_question_prompt`: the prompt f-string with its five interpolated
values (question count, joined difficulty filter, joined category filter, the
format example, and the resume text truncated to 5000 characters). -/
def create_question_prompt (resume_text : List Char) (question_count : ℕ)
    (difficulty_filter category_filter : List (List Char)) : List Char :=
  promptSeg1 ++ ((toString question_count).toList ++ (promptSeg2 ++
    (pyJoin ", ".toList difficulty_filter ++ (promptSeg3 ++
    (pyJoin ", ".toList category_filter ++ (promptSeg4 ++
    (get_format_example category_filter ++ (promptSeg5 ++
    (resume_text.take 5000 ++ promptSeg6)))))))))

/-! ## `json.loads` and the Shape-A parse helpers of `question_generator.py` -/

/-- JSON values as produced by `json.loads`.  Numbers are exact rationals;
object members are kept in source order and lookups take the last binding,
matching Python's dict construction for duplicate keys.  `nan`, `inf` and
`ninf` model the non-standard `NaN`/`Infinity`/`-Infinity` literals Python
accepts by default. -/
inductive Json
  | null
  | bool (b : Bool)
  | num (q : ℚ)
  | str (s : List Char)
  | arr (xs : List Json)
  | obj (kvs : List (List Char × Json))
  | nan
  | inf
  | ninf

/-- The whitespace skipped between JSON tokens. -/
def jsonWs (c : Char) : Bool := c ∈ [' ', '\t', '\n', '\r']

def skipWs (s : List Char) : List Char := s.dropWhile jsonWs

def hexVal (c : Char) : Option ℕ :=
  if '0' ≤ c ∧ c ≤ '9' then some (c.toNat - '0'.toNat)
  else if 'a' ≤ c ∧ c ≤ 'f' then some (c.toNat - 'a'.toNat + 10)
  else if 'A' ≤ c ∧ c ≤ 'F' then some (c.toNat - 'A'.toNat + 10)
  else none

def natOfDigits (ds : List Char) : ℕ :=
  ds.foldl (fun acc c => acc * 10 + (c.toNat - '0'.toNat)) 0

/-- Body of a JSON string, after the opening quote: literal characters and
escapes up to the closing quote.  Returns the decoded text and the rest. -/
def parseStringBody : ℕ → List Char → Option (List Char × List Char)
  | 0, _ => none
  | fuel + 1, s =>
    match s with
    | [] => none
    | '"' :: rest => some ([], rest)
    | '\\' :: esc :: rest =>
      let cont := fun (c : Char) (r : List Char) =>
        (parseStringBody fuel r).map (fun pr => (c :: pr.1, pr.2))
      match esc with
      | '"' => cont '"' rest
      | '\\' => cont '\\' rest
      | '/' => cont '/' rest
      | 'b' => cont '\x08' rest
      | 'f' => cont '\x0c' rest
      | 'n' => cont '\n' rest
      | 'r' => cont '\r' rest
      | 't' => cont '\t' rest
      | 'u' =>
        match rest with
        | h1 :: h2 :: h3 :: h4 :: rest2 =>
          match hexVal h1, hexVal h2, hexVal h3, hexVal h4 with
          | some d1, some d2, some d3, some d4 =>
            (parseStringBody fuel rest2).map
              (fun pr => (Char.ofNat (((d1 * 16 + d2) * 16 + d3) * 16 + d4) :: pr.1, pr.2))
          | _, _, _, _ => none
        | _ => none
      | _ => none
    | [c] =>
      if c = '\\' then none
      else if c.toNat < 0x20 then none
      else (parseStringBody fuel []).map (fun pr => (c :: pr.1, pr.2))
    | c :: rest =>
      if c.toNat < 0x20 then none
      else (parseStringBody fuel rest).map (fun pr => (c :: pr.1, pr.2))

/-- Optional exponent part of a JSON number; defaults to exponent `0`. -/
def parseExpPart (s : List Char) : Option (Int × List Char) :=
  match s with
  | c :: r =>
    if c = 'e' ∨ c = 'E' then
      let sg : Int × List Char :=
        match r with
        | '+' :: rr => (1, rr)
        | '-' :: rr => (-1, rr)
        | _ => (1, r)
      let es := sg.2.takeWhile Char.isDigit
      if es = [] then none
      else some (sg.1 * (natOfDigits es : Int), sg.2.dropWhile Char.isDigit)
    else some (0, s)
  | [] => some (0, [])

/-- A JSON number: optional sign, integer part without superfluous leading
zeros, optional fraction, optional exponent. -/
def parseNumber (s : List Char) : Option (Json × List Char) :=
  let sgn : ℚ × List Char :=
    match s with
    | '-' :: r => (-1, r)
    | _ => (1, s)
  let ds := sgn.2.takeWhile Char.isDigit
  let rest := sgn.2.dropWhile Char.isDigit
  if ds = [] then none
  else if ds.length > 1 ∧ ds.head? = some '0' then none
  else
    let ipart : ℚ := (natOfDigits ds : ℚ)
    let fr : Option (ℚ × List Char) :=
      match rest with
      | '.' :: r2 =>
        let fs := r2.takeWhile Char.isDigit
        if fs = [] then none
        else some ((natOfDigits fs : ℚ) / (10 : ℚ) ^ fs.length, r2.dropWhile Char.isDigit)
      | _ => some (0, rest)
    match fr with
    | none => none
    | some (fpart, rest2) =>
      match parseExpPart rest2 with
      | none => none
      | some (e, rest3) => some (.num (sgn.1 * (ipart + fpart) * (10 : ℚ) ^ e), rest3)

mutual

/-- One JSON value at the front of `s` (leading whitespace allowed). -/
def parseValue : ℕ → List Char → Option (Json × List Char)
  | 0, _ => none
  | fuel + 1, s =>
    match skipWs s with
    | '{' :: rest =>
      (match skipWs rest with
       | '}' :: rest2 => some (.obj [], rest2)
       | _ => (parseMembers fuel rest).map (fun pr => (.obj pr.1, pr.2)))
    | '[' :: rest =>
      (match skipWs rest with
       | ']' :: rest2 => some (.arr [], rest2)
       | _ => (parseElems fuel rest).map (fun pr => (.arr pr.1, pr.2)))
    | '"' :: rest => (parseStringBody (fuel + 1) rest).map (fun pr => (.str pr.1, pr.2))
    | 't' :: rest =>
      if "rue".toList.isPrefixOf rest then some (.bool true, rest.drop 3) else none
    | 'f' :: rest =>
      if "alse".toList.isPrefixOf rest then some (.bool false, rest.drop 4) else none
    | 'n' :: rest =>
      if "ull".toList.isPrefixOf rest then some (.null, rest.drop 3) else none
    | 'N' :: rest =>
      if "aN".toList.isPrefixOf rest then some (.nan, rest.drop 2) else none
    | 'I' :: rest =>
      if "nfinity".toList.isPrefixOf rest then some (.inf, rest.drop 7) else none
    | '-' :: rest =>
      if "Infinity".toList.isPrefixOf rest then some (.ninf, rest.drop 8)
      else parseNumber ('-' :: rest)
    | s2 => parseNumber s2

/-- Members of a JSON object, up to and including the closing brace. -/
def parseMembers : ℕ → List Char → Option (List (List Char × Json) × List Char)
  | 0, _ => none
  | fuel + 1, s =>
    match skipWs s with
    | '"' :: rest =>
      match parseStringBody (fuel + 1) rest with
      | none => none
      | some (key, rem) =>
        match skipWs rem with
        | ':' :: rem2 =>
          match parseValue fuel rem2 with
          | none => none
          | some (v, rem3) =>
            match skipWs rem3 with
            | ',' :: rem4 => (parseMembers fuel rem4).map (fun pr => ((key, v) :: pr.1, pr.2))
            | '}' :: rem4 => some ([(key, v)], rem4)
            | _ => none
        | _ => none
    | _ => none

/-- Elements of a JSON array, up to and including the closing bracket. -/
def parseElems : ℕ → List Char → Option (List Json × List Char)
  | 0, _ => none
  | fuel + 1, s =>
    match parseValue fuel s with
    | none => none
    | some (v, rem) =>
      match skipWs rem with
      | ',' :: rem2 => (parseElems fuel rem2).map (fun pr => (v :: pr.1, pr.2))
      | ']' :: rem2 => some ([v], rem2)
      | _ => none

end

/-- `json.loads`: one value, optional surrounding whitespace, no trailing
data.  The fuel `s.length + 1` is enough because every recursion step first
consumes at least one character. -/
def jsonParse (s : List Char) : Option Json :=
  match parseValue (s.length + 1) s with
  | some (v, rem) => if skipWs rem = [] then some v else none
  | none => none

/-- Is the decode result a JSON object?  (`json.loads` succeeded and returned
a dict — the only case in which the `.get` calls of the parse helpers do not
raise.) -/
def isJsonObj : Option Json → Bool
  | some (.obj _) => true
  | _ => false

/-- Python `dict.get(key, default)` for a decoded object: last binding wins,
as in dict construction from duplicate keys. -/
def jsonGetD (kvs : List (List Char × Json)) (k : List Char) (dflt : Json) : Json :=
  match kvs.reverse.find? (fun e => e.1 = k) with
  | some e => e.2
  | none => dflt

/-- `_parse_questions`: decode, read `"questions"` with default `[]`; any
failure (decode error, or `.get` on a non-dict) is caught, an error is
reported (the boolean), and `[]` is returned. -/
def parse_questions (llm_response : List Char) : Json × Bool :=
  match jsonParse llm_response with
  | some (.obj kvs) => (jsonGetD kvs "questions".toList (.arr []), false)
  | some _ => (.arr [], true)
  | none => (.arr [], true)

/-- `_parse_insights`: as `_parse_questions` with key `"insights"` and
default `{}`. -/
def parse_insights (llm_response : List Char) : Json × Bool :=
  match jsonParse llm_response with
  | some (.obj kvs) => (jsonGetD kvs "insights".toList (.obj []), false)
  | some _ => (.obj [], true)
  | none => (.obj [], true)

/-- `_parse_ats_suggestions`: as `_parse_questions` with key
`"ats_suggestions"` and default `[]`. -/
def parse_ats_suggestions (llm_response : List Char) : Json × Bool :=
  match jsonParse llm_response with
  | some (.obj kvs) => (jsonGetD kvs "ats_suggestions".toList (.arr []), false)
  | some _ => (.arr [], true)
  | none => (.arr [], true)

/-! ## `resume_parser.py`: `clean_text` -/

/-- `re.sub(r'\n+', ' ', s)`: each newline run becomes one space. -/
def subNewlines : List Char → List Char
  | [] => []
  | c :: rest =>
    if c = '\n' then ' ' :: subNewlines (rest.dropWhile (· = '\n'))
    else c :: subNewlines rest
termination_by s => s.length
decreasing_by
  all_goals simp only [List.length_cons]
  all_goals try omega
  all_goals exact Nat.lt_succ_of_le ((List.dropWhile_sublist _).length_le)

/-- `re.sub(r' {2,}', ' ', s)`: each run of two or more spaces becomes one. -/
def subMultiSpaces : List Char → List Char
  | [] => []
  | [c] => [c]
  | c :: d :: rest =>
    if c = ' ' ∧ d = ' ' then ' ' :: subMultiSpaces (rest.dropWhile (· = ' '))
    else c :: subMultiSpaces (d :: rest)
termination_by s => s.length
decreasing_by
  all_goals simp only [List.length_cons]
  all_goals try omega
  all_goals exact Nat.lt_succ_of_le (Nat.le_succ_of_le ((List.dropWhile_sublist _).length_le))

/-- `re.sub(r'●\s*', '• ', s)`: a filled bullet plus its following whitespace
run becomes a small bullet and one space. -/
def subBigBullet : List Char → List Char
  | [] => []
  | c :: rest =>
    if c = '●' then '•' :: ' ' :: subBigBullet (rest.dropWhile pyIsSpace)
    else c :: subBigBullet rest
termination_by s => s.length
decreasing_by
  all_goals simp only [List.length_cons]
  all_goals try omega
  all_goals exact Nat.lt_succ_of_le ((List.dropWhile_sublist _).length_le)

/-- `re.sub(r'•\s*', '• ', s)`. -/
def subSmallBullet : List Char → List Char
  | [] => []
  | c :: rest =>
    if c = '•' then '•' :: ' ' :: subSmallBullet (rest.dropWhile pyIsSpace)
    else c :: subSmallBullet rest
termination_by s => s.length
decreasing_by
  all_goals simp only [List.length_cons]
  all_goals try omega
  all_goals exact Nat.lt_succ_of_le ((List.dropWhile_sublist _).length_le)

/-- The character class `[•\-]` of the bullet-spacing patterns. -/
def isBullet (c : Char) : Bool := c = '•' || c = '-'

/-- Head of a list is a bullet. -/
def headIsBullet : List Char → Bool
  | b :: _ => isBullet b
  | [] => false

/-- Head of a list is whitespace. -/
def headIsSpace : List Char → Bool
  | w :: _ => pyIsSpace w
  | [] => false

/-- Does `re.sub(r'\s+([•\-])', …)` match at the front of the string: a
whitespace run immediately followed by a bullet? -/
def sbbMatch : List Char → Bool
  | c :: rest => pyIsSpace c && headIsBullet (rest.dropWhile pyIsSpace)
  | [] => false

/-- `re.sub(r'\s+([•\-])', r' \1', s)`: a whitespace run followed by a bullet
becomes a single space and that bullet. -/
def subSpacesBeforeBullet : List Char → List Char
  | [] => []
  | c :: rest =>
    if pyIsSpace c && headIsBullet (rest.dropWhile pyIsSpace) then
      ' ' :: (rest.dropWhile pyIsSpace).headD 'x' ::
        subSpacesBeforeBullet (rest.dropWhile pyIsSpace).tail
    else c :: subSpacesBeforeBullet rest
termination_by s => s.length
decreasing_by
  all_goals simp only [List.length_cons]
  all_goals try omega
  all_goals exact Nat.lt_succ_of_le (le_trans (le_of_eq (List.length_tail _))
    (le_trans (Nat.sub_le _ _) ((List.dropWhile_sublist _).length_le)))

/-- `re.sub(r'([•\-])\s+', r'\1 ', s)`: a bullet followed by a whitespace run
becomes that bullet and a single space. -/
def subSpacesAfterBullet : List Char → List Char
  | [] => []
  | c :: rest =>
    if isBullet c && headIsSpace rest then
      c :: ' ' :: subSpacesAfterBullet (rest.dropWhile pyIsSpace)
    else c :: subSpacesAfterBullet rest
termination_by s => s.length
decreasing_by
  all_goals simp only [List.length_cons]
  all_goals try omega
  all_goals exact Nat.lt_succ_of_le ((List.dropWhile_sublist _).length_le)

/-- `re.sub(r' +', ' ', s)`: each space run becomes one space. -/
def subSpaceRuns : List Char → List Char
  | [] => []
  | c :: rest =>
    if c = ' ' then ' ' :: subSpaceRuns (rest.dropWhile (· = ' '))
    else c :: subSpaceRuns rest
termination_by s => s.length
decreasing_by
  all_goals simp only [List.length_cons]
  all_goals try omega
  all_goals exact Nat.lt_succ_of_le ((List.dropWhile_sublist _).length_le)

/-- `clean_text`: empty input short-circuits; otherwise the eight steps of the
source, in order (newline runs, space runs of length ≥ 2, strip, the two
bullet normalisations, spacing before and after bullets, space runs). -/
def clean_text (text : List Char) : List Char :=
  if text = [] then []
  else
    subSpaceRuns (subSpacesAfterBullet (subSpacesBeforeBullet (subSmallBullet
      (subBigBullet (pyStrip (subMultiSpaces (subNewlines text)))))))

/-! Normal-form predicates for the output of `clean_text`. -/

/-- No two adjacent plain spaces. -/
def noTwoSpaces : List Char → Bool
  | [] => true
  | [_] => true
  | c :: d :: rest => !(c = ' ' && d = ' ') && noTwoSpaces (d :: rest)

/-- Head, if any, is not whitespace. -/
def headNotWs : List Char → Bool
  | c :: _ => !pyIsSpace c
  | [] => true

/-- Every `•` is followed by exactly one space and then a non-whitespace
character or the end of the string. -/
def bulletSpaced : List Char → Bool
  | [] => true
  | [c] => c ≠ '•'
  | c :: d :: rest =>
    if c = '•' then (d = ' ') && headNotWs rest && bulletSpaced rest
    else bulletSpaced (d :: rest)

/-- Every `-` followed by whitespace is followed by exactly one space and then
a non-whitespace character or the end of the string. -/
def dashSpaced : List Char → Bool
  | [] => true
  | [_] => true
  | c :: d :: rest =>
    if c = '-' && pyIsSpace d then (d = ' ') && headNotWs rest && dashSpaced rest
    else dashSpaced (d :: rest)

/-- Every whitespace character immediately followed by a bullet is a single
plain space whose predecessor (`p` at the head) is not whitespace. -/
def beforeBulletOk (p : Char) : List Char → Bool
  | [] => true
  | c :: rest =>
    ((!(pyIsSpace c && headIsBullet rest)) || (decide (c = ' ') && !pyIsSpace p)) &&
      beforeBulletOk c rest

/-- Trailing whitespace, if any, is a single space preceded by `•`. -/
def trailOk : List Char → Bool
  | [] => true
  | [c] => !pyIsSpace c
  | [c, d] => (c = '•' && d = ' ') || !pyIsSpace d
  | _ :: d :: e :: rest => trailOk (d :: e :: rest)

-- ===================== Theorems =====================

/-- C8 counterexample: `clean_text "●" = "• "` ends in whitespace, because the
strip step runs before the bullet normalisation, which appends a space. -/
theorem clean_text_trailing_space :
    clean_text "●".toList = ['•', ' '] ∧
    (clean_text "●".toList).getLast? = some ' ' ∧
    pyIsSpace ' ' = true := by
  have h : clean_text "●".toList = ['•', ' '] := by
    simp [clean_text, subNewlines, subMultiSpaces, pyStrip, pyLstrip, pyRstrip,
      subBigBullet, subSmallBullet, subSpacesBeforeBullet, subSpacesAfterBullet,
      subSpaceRuns, pyIsSpace, isBullet, headIsBullet, headIsSpace, List.dropWhile]
  exact ⟨h, by rw [h]; decide, by decide⟩

theorem notMem_dropWhile {d : Char} (p : Char → Bool) (s : List Char) (h : d ∉ s) :
    d ∉ s.dropWhile p := fun hm => h ((List.dropWhile_sublist p).subset hm)

theorem subNewlines_no_nl (s : List Char) : '\n' ∉ subNewlines s := by
  induction s using subNewlines.induct with
  | case1 => simp [subNewlines]
  | case2 rest ih =>
    rw [subNewlines, if_pos rfl]
    intro hm
    rcases List.mem_cons.mp hm with h1 | h1
    · exact absurd h1.symm (by decide)
    · exact ih h1
  | case3 c rest h ih =>
    rw [subNewlines, if_neg h]
    intro hm
    rcases List.mem_cons.mp hm with h1 | h1
    · exact h (h1 ▸ rfl)
    · exact ih h1

theorem subMultiSpaces_notMem (d : Char) (hd : d ≠ ' ') (s : List Char) (h : d ∉ s) :
    d ∉ subMultiSpaces s := by
  induction s using subMultiSpaces.induct with
  | case1 => simp [subMultiSpaces]
  | case2 c => simpa [subMultiSpaces] using h
  | case3 c e rest hce ih =>
    rw [subMultiSpaces, if_pos hce]
    intro hm
    rcases List.mem_cons.mp hm with h1 | h1
    · exact hd h1
    · exact ih (fun hmem => h (List.mem_cons_of_mem _
        (List.mem_cons_of_mem _ ((List.dropWhile_sublist _).subset hmem)))) h1
  | case4 c e rest hce ih =>
    rw [subMultiSpaces, if_neg hce]
    intro hm
    rcases List.mem_cons.mp hm with h1 | h1
    · exact h (h1 ▸ List.mem_cons_self _ _)
    · exact ih (fun hmem => h (List.mem_cons_of_mem _ hmem)) h1

theorem subBigBullet_notMem (d : Char) (hd1 : d ≠ ' ') (hd2 : d ≠ '•') (s : List Char)
    (h : d ∉ s) : d ∉ subBigBullet s := by
  induction s using subBigBullet.induct with
  | case1 => simp [subBigBullet]
  | case2 rest ih =>
    rw [subBigBullet, if_pos rfl]
    intro hm
    rcases List.mem_cons.mp hm with h1 | h1
    · exact hd2 h1
    rcases List.mem_cons.mp h1 with h2 | h2
    · exact hd1 h2
    · exact ih (notMem_dropWhile _ _ (fun hmem => h (List.mem_cons_of_mem _ hmem))) h2
  | case3 c rest hc ih =>
    rw [subBigBullet, if_neg hc]
    intro hm
    rcases List.mem_cons.mp hm with h1 | h1
    · exact h (h1 ▸ List.mem_cons_self _ _)
    · exact ih (fun hmem => h (List.mem_cons_of_mem _ hmem)) h1

theorem subSmallBullet_notMem (d : Char) (hd1 : d ≠ ' ') (hd2 : d ≠ '•') (s : List Char)
    (h : d ∉ s) : d ∉ subSmallBullet s := by
  induction s using subSmallBullet.induct with
  | case1 => simp [subSmallBullet]
  | case2 rest ih =>
    rw [subSmallBullet, if_pos rfl]
    intro hm
    rcases List.mem_cons.mp hm with h1 | h1
    · exact hd2 h1
    rcases List.mem_cons.mp h1 with h2 | h2
    · exact hd1 h2
    · exact ih (notMem_dropWhile _ _ (fun hmem => h (List.mem_cons_of_mem _ hmem))) h2
  | case3 c rest hc ih =>
    rw [subSmallBullet, if_neg hc]
    intro hm
    rcases List.mem_cons.mp hm with h1 | h1
    · exact h (h1 ▸ List.mem_cons_self _ _)
    · exact ih (fun hmem => h (List.mem_cons_of_mem _ hmem)) h1

theorem pyRstrip_sublist (s : List Char) : List.Sublist (pyRstrip s) s := by
  induction s with
  | nil => simp [pyRstrip]
  | cons c rest ih =>
    rw [pyRstrip]
    cases hr : pyRstrip rest with
    | nil =>
      by_cases hws : pyIsSpace c = true
      · rw [if_pos hws]
        exact List.nil_sublist _
      · rw [if_neg hws]
        exact (List.nil_sublist rest).cons₂ c
    | cons x xs =>
      rw [hr] at ih
      exact ih.cons₂ c

theorem pyRstrip_notMem (d : Char) (s : List Char) (h : d ∉ s) : d ∉ pyRstrip s :=
  fun hm => h ((pyRstrip_sublist s).subset hm)

theorem pyStrip_notMem (d : Char) (s : List Char) (h : d ∉ s) : d ∉ pyStrip s :=
  pyRstrip_notMem d _ (notMem_dropWhile _ _ h)

theorem subSpacesBeforeBullet_notMem (d : Char) (hd : d ≠ ' ') (s : List Char)
    (h : d ∉ s) : d ∉ subSpacesBeforeBullet s := by
  induction s using subSpacesBeforeBullet.induct with
  | case1 => simp [subSpacesBeforeBullet]
  | case2 c rest hc ih =>
    rw [subSpacesBeforeBullet, if_pos hc]
    cases hdw : rest.dropWhile pyIsSpace with
    | nil =>
      rw [hdw] at hc
      simp [headIsBullet] at hc
    | cons b t =>
      rw [hdw] at ih
      intro hm
      rcases List.mem_cons.mp hm with h1 | h1
      · exact hd h1
      rcases List.mem_cons.mp h1 with h2 | h2
      · rw [List.headD_cons] at h2
        refine h (List.mem_cons_of_mem _ ((List.dropWhile_sublist pyIsSpace).subset ?_))
        rw [hdw, h2]
        exact List.mem_cons_self _ _
      · simp only [List.tail_cons] at ih h2
        refine ih ?_ h2
        intro hmem
        refine h (List.mem_cons_of_mem _ ((List.dropWhile_sublist pyIsSpace).subset ?_))
        rw [hdw]
        exact List.mem_cons_of_mem _ hmem
  | case3 c rest hc ih =>
    rw [subSpacesBeforeBullet, if_neg hc]
    intro hm
    rcases List.mem_cons.mp hm with h1 | h1
    · exact h (h1 ▸ List.mem_cons_self _ _)
    · exact ih (fun hmem => h (List.mem_cons_of_mem _ hmem)) h1

theorem subSpacesAfterBullet_notMem (d : Char) (hd : d ≠ ' ') (s : List Char)
    (h : d ∉ s) : d ∉ subSpacesAfterBullet s := by
  induction s using subSpacesAfterBullet.induct with
  | case1 => simp [subSpacesAfterBullet]
  | case2 c rest hc ih =>
    rw [subSpacesAfterBullet, if_pos hc]
    intro hm
    rcases List.mem_cons.mp hm with h1 | h1
    · exact h (h1 ▸ List.mem_cons_self _ _)
    rcases List.mem_cons.mp h1 with h2 | h2
    · exact hd h2
    · exact ih (notMem_dropWhile _ _ (fun hmem => h (List.mem_cons_of_mem _ hmem))) h2
  | case3 c rest hc ih =>
    rw [subSpacesAfterBullet, if_neg hc]
    intro hm
    rcases List.mem_cons.mp hm with h1 | h1
    · exact h (h1 ▸ List.mem_cons_self _ _)
    · exact ih (fun hmem => h (List.mem_cons_of_mem _ hmem)) h1

theorem subSpaceRuns_notMem (d : Char) (hd : d ≠ ' ') (s : List Char)
    (h : d ∉ s) : d ∉ subSpaceRuns s := by
  induction s using subSpaceRuns.induct with
  | case1 => simp [subSpaceRuns]
  | case2 rest ih =>
    rw [subSpaceRuns, if_pos rfl]
    intro hm
    rcases List.mem_cons.mp hm with h1 | h1
    · exact hd h1
    · exact ih (notMem_dropWhile _ _ (fun hmem => h (List.mem_cons_of_mem _ hmem))) h1
  | case3 c rest hc ih =>
    rw [subSpaceRuns, if_neg hc]
    intro hm
    rcases List.mem_cons.mp hm with h1 | h1
    · exact h (h1 ▸ List.mem_cons_self _ _)
    · exact ih (fun hmem => h (List.mem_cons_of_mem _ hmem)) h1

theorem subNewlines_id (s : List Char) (h : '\n' ∉ s) : subNewlines s = s := by
  induction s using subNewlines.induct with
  | case1 => simp [subNewlines]
  | case2 rest ih => exact absurd (List.mem_cons_self _ _) h
  | case3 c rest hc ih =>
    rw [subNewlines, if_neg hc, ih (fun hm => h (List.mem_cons_of_mem _ hm))]

theorem subMultiSpaces_id (s : List Char) (h : noTwoSpaces s = true) :
    subMultiSpaces s = s := by
  induction s using subMultiSpaces.induct with
  | case1 => simp [subMultiSpaces]
  | case2 c => simp [subMultiSpaces]
  | case3 c d rest hcd ih =>
    simp only [noTwoSpaces, hcd.1, hcd.2, Bool.and_eq_true] at h
    simp at h
  | case4 c d rest hcd ih =>
    simp only [noTwoSpaces, Bool.and_eq_true] at h
    rw [subMultiSpaces, if_neg hcd, ih h.2]

theorem pyLstrip_id (s : List Char) (h : headNotWs s = true) : pyLstrip s = s := by
  cases s with
  | nil => rfl
  | cons c rest =>
    simp only [headNotWs, Bool.not_eq_true'] at h
    simp [pyLstrip, List.dropWhile_cons, h]

theorem subBigBullet_id (s : List Char) (h : '●' ∉ s) : subBigBullet s = s := by
  induction s using subBigBullet.induct with
  | case1 => simp [subBigBullet]
  | case2 rest ih => exact absurd (List.mem_cons_self _ _) h
  | case3 c rest hc ih =>
    rw [subBigBullet, if_neg hc, ih (fun hm => h (List.mem_cons_of_mem _ hm))]

theorem subSpaceRuns_id (s : List Char) (h : noTwoSpaces s = true) :
    subSpaceRuns s = s := by
  induction s using subSpaceRuns.induct with
  | case1 => simp [subSpaceRuns]
  | case2 rest ih =>
    rw [subSpaceRuns, if_pos rfl]
    cases rest with
    | nil => simp [subSpaceRuns]
    | cons d rest2 =>
      simp only [noTwoSpaces, Bool.and_eq_true, Bool.not_eq_true',
        Bool.and_eq_false_iff, decide_eq_false_iff_not, decide_eq_true_eq] at h
      have hd : ¬ (d = ' ') := by
        rcases h.1 with h1 | h1
        · simp at h1
        · exact h1
      have hdw : List.dropWhile (fun x => decide (x = ' ')) (d :: rest2) = d :: rest2 :=
        List.dropWhile_cons_of_neg (by simpa using hd)
      rw [hdw] at ih
      rw [hdw, ih ?_]
      cases rest2 with
      | nil => simp [noTwoSpaces]
      | cons e rest3 =>
        simp only [noTwoSpaces, Bool.and_eq_true] at h ⊢
        exact ⟨h.2.1, h.2.2⟩
  | case3 c rest hc ih =>
    rw [subSpaceRuns, if_neg hc]
    cases rest with
    | nil => simp [subSpaceRuns]
    | cons d rest2 =>
      simp only [noTwoSpaces, Bool.and_eq_true] at h
      rw [ih h.2]

theorem subSpaceRuns_cons_ne (c : Char) (rest : List Char) (hc : ¬(c = ' ')) :
    subSpaceRuns (c :: rest) = c :: subSpaceRuns rest := by
  rw [subSpaceRuns, if_neg hc]

theorem bulletSpaced_cons_ne (c : Char) (X : List Char) (hc : ¬(c = '•')) :
    bulletSpaced (c :: X) = bulletSpaced X := by
  cases X with
  | nil => simp [bulletSpaced, hc]
  | cons d r => rw [bulletSpaced, if_neg hc]

theorem dashSpaced_cons_ne (c : Char) (X : List Char) (hc : ¬(c = '-')) :
    dashSpaced (c :: X) = dashSpaced X := by
  cases X with
  | nil => simp [dashSpaced]
  | cons d r =>
    rw [dashSpaced, if_neg (by simp [hc])]

theorem headNotWs_dropWhile (s : List Char) :
    headNotWs (s.dropWhile pyIsSpace) = true := by
  have hh := List.head?_dropWhile_not pyIsSpace s
  cases hdw : s.dropWhile pyIsSpace with
  | nil => simp [headNotWs]
  | cons d r =>
    rw [hdw] at hh
    simp only [List.head?_cons] at hh
    simp [headNotWs, hh]

theorem subSmallBullet_headNotWs (t : List Char) (h : headNotWs t = true) :
    headNotWs (subSmallBullet t) = true := by
  cases t with
  | nil => simp [subSmallBullet, headNotWs]
  | cons c r =>
    by_cases hc : c = '•'
    · subst hc
      rw [subSmallBullet, if_pos rfl]
      simp [headNotWs, pyIsSpace]
    · rw [subSmallBullet, if_neg hc]
      simpa [headNotWs] using h

theorem subSpacesAfterBullet_head (s : List Char) :
    (subSpacesAfterBullet s).head? = s.head? := by
  cases s with
  | nil => simp [subSpacesAfterBullet]
  | cons c r =>
    by_cases hc : (isBullet c && headIsSpace r) = true
    · rw [subSpacesAfterBullet, if_pos hc]
      simp
    · rw [subSpacesAfterBullet, if_neg hc]
      simp

theorem bulletSpaced_subSmallBullet (s : List Char) :
    bulletSpaced (subSmallBullet s) = true := by
  induction s using subSmallBullet.induct with
  | case1 => simp [subSmallBullet, bulletSpaced]
  | case2 rest ih =>
    rw [subSmallBullet, if_pos rfl]
    rw [bulletSpaced, if_pos rfl]
    have hh : headNotWs (subSmallBullet (rest.dropWhile pyIsSpace)) = true :=
      subSmallBullet_headNotWs _ (headNotWs_dropWhile rest)
    simp [hh, ih]
  | case3 c rest hc ih =>
    rw [subSmallBullet, if_neg hc, bulletSpaced_cons_ne c _ hc]
    exact ih

theorem dashSpaced_subSpacesAfterBullet (s : List Char) :
    dashSpaced (subSpacesAfterBullet s) = true := by
  induction s using subSpacesAfterBullet.induct with
  | case1 => simp [subSpacesAfterBullet, dashSpaced]
  | case2 c rest hc ih =>
    rw [subSpacesAfterBullet, if_pos hc]
    by_cases hdash : c = '-'
    · subst hdash
      rw [dashSpaced, if_pos (by simp [pyIsSpace])]
      have hh : headNotWs (subSpacesAfterBullet (rest.dropWhile pyIsSpace)) = true := by
        have h1 := subSpacesAfterBullet_head (rest.dropWhile pyIsSpace)
        have h2 := headNotWs_dropWhile rest
        cases hx : (subSpacesAfterBullet (rest.dropWhile pyIsSpace)) with
        | nil => simp [headNotWs]
        | cons d r =>
          rw [hx] at h1
          cases hy : rest.dropWhile pyIsSpace with
          | nil => rw [hy] at h1; simp at h1
          | cons e r2 =>
            rw [hy] at h1 h2
            simp only [List.head?_cons, Option.some.injEq] at h1
            simpa [headNotWs, h1] using h2
      simp [hh, ih]
    · rw [dashSpaced_cons_ne c _ hdash, dashSpaced_cons_ne ' ' _ (by decide)]
      exact ih
  | case3 c rest hc ih =>
    rw [subSpacesAfterBullet, if_neg hc]
    by_cases hdash : c = '-'
    · subst hdash
      cases hx : subSpacesAfterBullet rest with
      | nil => simp [dashSpaced]
      | cons d r =>
        have h1 := subSpacesAfterBullet_head rest
        rw [hx] at h1
        have he : pyIsSpace d = false := by
          cases hy : rest with
          | nil => rw [hy] at h1; simp at h1
          | cons e r2 =>
            rw [hy] at h1
            simp only [List.head?_cons, Option.some.injEq] at h1
            rcases Bool.and_eq_false_iff.mp (Bool.eq_false_iff.mpr hc) with h3 | h3
            · simp [isBullet] at h3
            · rw [hy] at h3
              rw [h1]
              simpa [headIsSpace] using h3
        rw [hx] at ih
        rw [dashSpaced, if_neg (by simp [he])]
        exact ih
    · rw [dashSpaced_cons_ne c _ hdash]
      exact ih

theorem noTwoSpaces_subSpaceRuns (s : List Char) :
    noTwoSpaces (subSpaceRuns s) = true := by
  induction s using subSpaceRuns.induct with
  | case1 => simp [subSpaceRuns, noTwoSpaces]
  | case2 rest ih =>
    rw [subSpaceRuns, if_pos rfl]
    have hh := List.head?_dropWhile_not (fun x => decide (x = ' ')) rest
    cases hdw : rest.dropWhile (fun x => decide (x = ' ')) with
    | nil =>
      simp [subSpaceRuns, noTwoSpaces]
    | cons d rest2 =>
      rw [hdw] at hh
      simp only [List.head?_cons] at hh
      have hd : ¬ (d = ' ') := by simpa using hh
      rw [hdw] at ih
      rw [subSpaceRuns_cons_ne d rest2 hd] at ih ⊢
      simp only [noTwoSpaces, Bool.and_eq_true]
      exact ⟨by simp [hd], ih⟩
  | case3 c rest hc ih =>
    rw [subSpaceRuns, if_neg hc]
    cases hsr : subSpaceRuns rest with
    | nil => simp [noTwoSpaces]
    | cons d rest2 =>
      rw [hsr] at ih
      simp only [noTwoSpaces, Bool.and_eq_true]
      exact ⟨by simp [hc], ih⟩

/-- A bullet character is not whitespace. -/
theorem bullet_not_ws (c : Char) (h : isBullet c = true) : pyIsSpace c = false := by
  have h2 : c = '•' ∨ c = '-' := by simpa [isBullet] using h
  rcases h2 with h1 | h1 <;> subst h1 <;> decide

theorem dropWhile_headNotWs (s : List Char) (h : headNotWs s = true) :
    s.dropWhile pyIsSpace = s := by
  cases s with
  | nil => rfl
  | cons c r =>
    simp only [headNotWs, Bool.not_eq_true'] at h
    exact List.dropWhile_cons_of_neg (by simp [h])

theorem headNotWs_of_head_eq (X Y : List Char) (hh : X.head? = Y.head?)
    (h : headNotWs Y = true) : headNotWs X = true := by
  cases X with
  | nil => simp [headNotWs]
  | cons d r =>
    cases Y with
    | nil => simp at hh
    | cons c r2 =>
      simp only [List.head?_cons, Option.some.injEq] at hh
      subst hh
      simpa [headNotWs] using h

theorem headIsBullet_of_head_eq (X Y : List Char) (hh : X.head? = Y.head?) :
    headIsBullet X = headIsBullet Y := by
  cases X with
  | nil =>
    cases Y with
    | nil => rfl
    | cons c r => simp at hh
  | cons d r =>
    cases Y with
    | nil => simp at hh
    | cons c r2 =>
      simp only [List.head?_cons, Option.some.injEq] at hh
      subst hh
      rfl

theorem headNotWs_pyRstrip (s : List Char) (h : headNotWs s = true) :
    headNotWs (pyRstrip s) = true := by
  cases s with
  | nil => simpa using h
  | cons c r =>
    rw [pyRstrip]
    cases hx : pyRstrip r with
    | nil =>
      simp only [headNotWs, Bool.not_eq_true'] at h
      simp [h, headNotWs]
    | cons d r2 => simpa [headNotWs] using h

theorem headNotWs_pyStrip (s : List Char) : headNotWs (pyStrip s) = true := by
  unfold pyStrip pyLstrip
  exact headNotWs_pyRstrip _ (headNotWs_dropWhile s)

theorem subBigBullet_headNotWs (t : List Char) (h : headNotWs t = true) :
    headNotWs (subBigBullet t) = true := by
  cases t with
  | nil => simp [subBigBullet, headNotWs]
  | cons c r =>
    by_cases hc : c = '●'
    · subst hc
      rw [subBigBullet, if_pos rfl]
      simp [headNotWs, pyIsSpace]
    · rw [subBigBullet, if_neg hc]
      simpa [headNotWs] using h

theorem subSpacesBeforeBullet_headNotWs (t : List Char) (h : headNotWs t = true) :
    headNotWs (subSpacesBeforeBullet t) = true := by
  cases t with
  | nil => simp [subSpacesBeforeBullet, headNotWs]
  | cons c r =>
    simp only [headNotWs, Bool.not_eq_true'] at h
    rw [subSpacesBeforeBullet, if_neg (by simp [h])]
    simp [headNotWs, h]

theorem subSpacesAfterBullet_headNotWs (t : List Char) (h : headNotWs t = true) :
    headNotWs (subSpacesAfterBullet t) = true :=
  headNotWs_of_head_eq _ _ (subSpacesAfterBullet_head t) h

theorem subSpaceRuns_head (s : List Char) :
    (subSpaceRuns s).head? = s.head? := by
  cases s with
  | nil => simp [subSpaceRuns]
  | cons c r =>
    by_cases hc : c = ' '
    · subst hc
      rw [subSpaceRuns, if_pos rfl]
      simp
    · rw [subSpaceRuns_cons_ne c r hc]
      simp

theorem subSpaceRuns_headNotWs (t : List Char) (h : headNotWs t = true) :
    headNotWs (subSpaceRuns t) = true :=
  headNotWs_of_head_eq _ _ (subSpaceRuns_head t) h

theorem subBigBullet_ne_nil (c : Char) (rest : List Char) :
    subBigBullet (c :: rest) ≠ [] := by
  by_cases hc : c = '●'
  · subst hc; rw [subBigBullet, if_pos rfl]; simp
  · rw [subBigBullet, if_neg hc]; simp

theorem subSmallBullet_ne_nil (c : Char) (rest : List Char) :
    subSmallBullet (c :: rest) ≠ [] := by
  by_cases hc : c = '•'
  · subst hc; rw [subSmallBullet, if_pos rfl]; simp
  · rw [subSmallBullet, if_neg hc]; simp

theorem subSpacesBeforeBullet_ne_nil (c : Char) (rest : List Char) :
    subSpacesBeforeBullet (c :: rest) ≠ [] := by
  by_cases hc : (pyIsSpace c && headIsBullet (rest.dropWhile pyIsSpace)) = true
  · rw [subSpacesBeforeBullet, if_pos hc]; simp
  · rw [subSpacesBeforeBullet, if_neg hc]; simp

theorem subSpacesAfterBullet_ne_nil (c : Char) (rest : List Char) :
    subSpacesAfterBullet (c :: rest) ≠ [] := by
  by_cases hc : (isBullet c && headIsSpace rest) = true
  · rw [subSpacesAfterBullet, if_pos hc]; simp
  · rw [subSpacesAfterBullet, if_neg hc]; simp

theorem subSpaceRuns_ne_nil (c : Char) (rest : List Char) :
    subSpaceRuns (c :: rest) ≠ [] := by
  by_cases hc : c = ' '
  · subst hc; rw [subSpaceRuns, if_pos rfl]; simp
  · rw [subSpaceRuns, if_neg hc]; simp

theorem headIsBullet_subSpacesBeforeBullet (s : List Char)
    (h : headIsBullet (subSpacesBeforeBullet s) = true) : headIsBullet s = true := by
  cases s with
  | nil => simpa [subSpacesBeforeBullet] using h
  | cons c rest =>
    by_cases hc : (pyIsSpace c && headIsBullet (rest.dropWhile pyIsSpace)) = true
    · rw [subSpacesBeforeBullet, if_pos hc] at h
      simp only [headIsBullet] at h
      exact absurd h (by decide)
    · rw [subSpacesBeforeBullet, if_neg hc] at h
      simpa [headIsBullet] using h

theorem subBigBullet_no_big (s : List Char) : '●' ∉ subBigBullet s := by
  induction s using subBigBullet.induct with
  | case1 => simp [subBigBullet]
  | case2 rest ih =>
    rw [subBigBullet, if_pos rfl]
    intro hmem
    rcases List.mem_cons.mp hmem with h1 | h1
    · exact absurd h1.symm (by decide)
    · rcases List.mem_cons.mp h1 with h2 | h2
      · exact absurd h2.symm (by decide)
      · exact ih h2
  | case3 c rest hc ih =>
    rw [subBigBullet, if_neg hc]
    intro hmem
    rcases List.mem_cons.mp hmem with h1 | h1
    · exact hc (h1 ▸ rfl)
    · exact ih h1

theorem trailOk_cons_iff (c : Char) (X : List Char) (hX : X ≠ []) :
    trailOk (c :: X) = true ↔ (trailOk X = true ∨ (c = '•' ∧ X = [' '])) := by
  cases X with
  | nil => exact absurd rfl hX
  | cons d Y =>
    cases Y with
    | nil =>
      simp only [trailOk, Bool.or_eq_true, Bool.and_eq_true, decide_eq_true_eq,
        Bool.not_eq_true', List.cons.injEq, and_true]
      tauto
    | cons e r =>
      simp only [trailOk]
      constructor
      · exact fun h => Or.inl h
      · rintro (h | ⟨h1, h2⟩)
        · exact h
        · simp at h2

theorem trailOk_not_all_ws (s : List Char) (hne : s ≠ [])
    (hall : ∀ x ∈ s, pyIsSpace x = true) : trailOk s = false := by
  induction s with
  | nil => exact absurd rfl hne
  | cons c rest ih =>
    cases rest with
    | nil =>
      simp only [trailOk, Bool.not_eq_false']
      exact hall c (by simp)
    | cons d Y =>
      cases Y with
      | nil =>
        have hd : pyIsSpace d = true := hall d (by simp)
        have hcb : ¬ (c = '•') := by
          intro hcc
          have hc : pyIsSpace c = true := hall c (by simp)
          rw [hcc] at hc
          exact absurd hc (by decide)
        simp [trailOk, hd, hcb]
      | cons e r =>
        simp only [trailOk]
        exact ih (by simp) (fun x hx => hall x (List.mem_cons_of_mem _ hx))

theorem trailOk_dropWhile_of (p : Char → Bool) (hp : p '•' = false) (s : List Char)
    (h : trailOk s = true) : trailOk (s.dropWhile p) = true := by
  induction s with
  | nil => simpa using h
  | cons c rest ih =>
    by_cases hc : p c = true
    · rw [List.dropWhile_cons_of_pos hc]
      cases rest with
      | nil => simp [trailOk]
      | cons d Y =>
        have hcb : ¬ (c = '•') := by
          intro hcc
          rw [hcc, hp] at hc
          simp at hc
        rcases (trailOk_cons_iff c (d::Y) (by simp)).mp h with h1 | ⟨h2, h3⟩
        · exact ih h1
        · exact absurd h2 hcb
    · rw [List.dropWhile_cons_of_neg (by simpa using hc)]
      exact h

theorem trailOk_pyRstrip (s : List Char) : trailOk (pyRstrip s) = true := by
  induction s with
  | nil => simp [pyRstrip, trailOk]
  | cons c rest ih =>
    rw [pyRstrip]
    cases hx : pyRstrip rest with
    | nil =>
      by_cases hc : pyIsSpace c = true
      · simp [hc, trailOk]
      · simp only [Bool.not_eq_true] at hc
        simp [hc, trailOk]
    | cons d Y =>
      rw [hx] at ih
      exact (trailOk_cons_iff c (d::Y) (by simp)).mpr (Or.inl ih)

theorem pyRstrip_eq_nil_iff (s : List Char) :
    pyRstrip s = [] ↔ ∀ x ∈ s, pyIsSpace x = true := by
  induction s with
  | nil => simp [pyRstrip]
  | cons c rest ih =>
    rw [pyRstrip]
    cases hx : pyRstrip rest with
    | nil =>
      have hall : ∀ x ∈ rest, pyIsSpace x = true := ih.mp hx
      by_cases hc : pyIsSpace c = true
      · rw [if_pos hc]
        constructor
        · intro _ x hx2
          rcases List.mem_cons.mp hx2 with h1 | h1
          · rw [h1]; exact hc
          · exact hall x h1
        · intro _; rfl
      · rw [if_neg hc]
        constructor
        · intro hcon; simp at hcon
        · intro hall2
          exact absurd (hall2 c (by simp)) hc
    | cons d Y =>
      constructor
      · intro hcon; exact absurd hcon (by simp)
      · intro hall2
        have h0 : pyRstrip rest = [] :=
          ih.mpr (fun x hx => hall2 x (List.mem_cons_of_mem _ hx))
        rw [hx] at h0
        simp at h0

theorem pyRstrip_head (s : List Char) (h : pyRstrip s ≠ []) :
    (pyRstrip s).head? = s.head? := by
  cases s with
  | nil => rfl
  | cons c rest =>
    rw [pyRstrip] at h ⊢
    cases hx : pyRstrip rest with
    | nil =>
      rw [hx] at h
      by_cases hc : pyIsSpace c = true
      · exfalso
        simp [hc] at h
      · simp [hc]
    | cons d Y => simp

theorem subBigBullet_single_space : subBigBullet [' '] = [' '] := by
  rw [subBigBullet, if_neg (by decide)]
  simp [subBigBullet]

theorem subSmallBullet_single_space : subSmallBullet [' '] = [' '] := by
  rw [subSmallBullet, if_neg (by decide)]
  simp [subSmallBullet]

theorem subSpacesBeforeBullet_single_space : subSpacesBeforeBullet [' '] = [' '] := by
  rw [subSpacesBeforeBullet, if_neg (by decide)]
  simp [subSpacesBeforeBullet]

theorem subSpacesAfterBullet_single_space : subSpacesAfterBullet [' '] = [' '] := by
  rw [subSpacesAfterBullet, if_neg (by decide)]
  simp [subSpacesAfterBullet]

theorem subSpaceRuns_single_space : subSpaceRuns [' '] = [' '] := by
  rw [subSpaceRuns, if_pos rfl]
  simp [subSpaceRuns]

theorem subBigBullet_trailOk (s : List Char) (h : trailOk s = true) :
    trailOk (subBigBullet s) = true := by
  induction s using subBigBullet.induct with
  | case1 => simpa [subBigBullet] using h
  | case2 rest ih =>
    rw [subBigBullet, if_pos rfl]
    have hrest : trailOk (rest.dropWhile pyIsSpace) = true := by
      cases rest with
      | nil => simp [trailOk]
      | cons d Y =>
        rcases (trailOk_cons_iff '●' (d::Y) (by simp)).mp h with h1 | ⟨h2, _⟩
        · exact trailOk_dropWhile_of pyIsSpace (by decide) _ h1
        · simp at h2
    have ihx := ih hrest
    cases hX : subBigBullet (rest.dropWhile pyIsSpace) with
    | nil => decide
    | cons d Y =>
      rw [hX] at ihx
      refine (trailOk_cons_iff '•' (' '::d::Y) (by simp)).mpr (Or.inl ?_)
      exact (trailOk_cons_iff ' ' (d::Y) (by simp)).mpr (Or.inl ihx)
  | case3 c rest hc ih =>
    rw [subBigBullet, if_neg hc]
    cases rest with
    | nil =>
      have e : subBigBullet ([] : List Char) = [] := by simp [subBigBullet]
      rw [e]
      exact h
    | cons d Y =>
      rcases (trailOk_cons_iff c (d::Y) (by simp)).mp h with h1 | ⟨h2, h3⟩
      · have ihx := ih h1
        cases hX : subBigBullet (d::Y) with
        | nil => exact absurd hX (subBigBullet_ne_nil d Y)
        | cons e Z =>
          rw [hX] at ihx
          exact (trailOk_cons_iff c (e::Z) (by simp)).mpr (Or.inl ihx)
      · subst h2
        rw [h3, subBigBullet_single_space]
        decide

theorem subSmallBullet_trailOk (s : List Char) (h : trailOk s = true) :
    trailOk (subSmallBullet s) = true := by
  induction s using subSmallBullet.induct with
  | case1 => simpa [subSmallBullet] using h
  | case2 rest ih =>
    rw [subSmallBullet, if_pos rfl]
    have hrest : trailOk (rest.dropWhile pyIsSpace) = true := by
      cases rest with
      | nil => simp [trailOk]
      | cons d Y =>
        rcases (trailOk_cons_iff '•' (d::Y) (by simp)).mp h with h1 | ⟨_, h3⟩
        · exact trailOk_dropWhile_of pyIsSpace (by decide) _ h1
        · rw [h3]
          decide
    have ihx := ih hrest
    cases hX : subSmallBullet (rest.dropWhile pyIsSpace) with
    | nil => decide
    | cons d Y =>
      rw [hX] at ihx
      refine (trailOk_cons_iff '•' (' '::d::Y) (by simp)).mpr (Or.inl ?_)
      exact (trailOk_cons_iff ' ' (d::Y) (by simp)).mpr (Or.inl ihx)
  | case3 c rest hc ih =>
    rw [subSmallBullet, if_neg hc]
    cases rest with
    | nil =>
      have e : subSmallBullet ([] : List Char) = [] := by simp [subSmallBullet]
      rw [e]
      exact h
    | cons d Y =>
      rcases (trailOk_cons_iff c (d::Y) (by simp)).mp h with h1 | ⟨h2, h3⟩
      · have ihx := ih h1
        cases hX : subSmallBullet (d::Y) with
        | nil => exact absurd hX (subSmallBullet_ne_nil d Y)
        | cons e Z =>
          rw [hX] at ihx
          exact (trailOk_cons_iff c (e::Z) (by simp)).mpr (Or.inl ihx)
      · exact absurd h2 hc

theorem subSpacesBeforeBullet_trailOk (s : List Char) (h : trailOk s = true) :
    trailOk (subSpacesBeforeBullet s) = true := by
  induction s using subSpacesBeforeBullet.induct with
  | case1 => simpa [subSpacesBeforeBullet] using h
  | case2 c rest hc ih =>
    rw [subSpacesBeforeBullet, if_pos hc]
    rw [Bool.and_eq_true] at hc
    cases hdw : rest.dropWhile pyIsSpace with
    | nil =>
      rw [hdw] at hc
      simp [headIsBullet] at hc
    | cons b t =>
      rw [hdw] at ih
      have hc2 : isBullet b = true := by
        have := hc.2
        rw [hdw] at this
        simpa [headIsBullet] using this
      have hcb : ¬ (c = '•') := by
        intro hcc
        have hc1 := hc.1
        rw [hcc] at hc1
        exact absurd hc1 (by decide)
      have hrest : trailOk rest = true := by
        cases rest with
        | nil => simp [trailOk]
        | cons d Y =>
          rcases (trailOk_cons_iff c (d::Y) (by simp)).mp h with h1 | ⟨h2, _⟩
          · exact h1
          · exact absurd h2 hcb
      have hbt : trailOk (b :: t) = true := by
        have h0 := trailOk_dropWhile_of pyIsSpace (by decide) rest hrest
        rwa [hdw] at h0
      simp only [List.headD_cons, List.tail_cons]
      simp only [List.tail_cons] at ih
      cases t with
      | nil =>
        have e : subSpacesBeforeBullet ([] : List Char) = [] := by
          simp [subSpacesBeforeBullet]
        rw [e]
        have hbw := bullet_not_ws b hc2
        simp [trailOk, hbw]
      | cons u v =>
        rcases (trailOk_cons_iff b (u::v) (by simp)).mp hbt with h1 | ⟨h2, h3⟩
        · have ihx := ih h1
          cases hX : subSpacesBeforeBullet (u::v) with
          | nil => exact absurd hX (subSpacesBeforeBullet_ne_nil u v)
          | cons e Z =>
            rw [hX] at ihx
            refine (trailOk_cons_iff ' ' (b::e::Z) (by simp)).mpr (Or.inl ?_)
            exact (trailOk_cons_iff b (e::Z) (by simp)).mpr (Or.inl ihx)
        · rw [h3, subSpacesBeforeBullet_single_space, h2]
          decide
  | case3 c rest hc ih =>
    rw [subSpacesBeforeBullet, if_neg hc]
    cases rest with
    | nil =>
      have e : subSpacesBeforeBullet ([] : List Char) = [] := by
        simp [subSpacesBeforeBullet]
      rw [e]
      exact h
    | cons d Y =>
      rcases (trailOk_cons_iff c (d::Y) (by simp)).mp h with h1 | ⟨h2, h3⟩
      · have ihx := ih h1
        cases hX : subSpacesBeforeBullet (d::Y) with
        | nil => exact absurd hX (subSpacesBeforeBullet_ne_nil d Y)
        | cons e Z =>
          rw [hX] at ihx
          exact (trailOk_cons_iff c (e::Z) (by simp)).mpr (Or.inl ihx)
      · subst h2
        rw [h3, subSpacesBeforeBullet_single_space]
        decide

theorem subSpacesAfterBullet_trailOk (s : List Char) (h : trailOk s = true) :
    trailOk (subSpacesAfterBullet s) = true := by
  induction s using subSpacesAfterBullet.induct with
  | case1 => simpa [subSpacesAfterBullet] using h
  | case2 c rest hc ih =>
    rw [subSpacesAfterBullet, if_pos hc]
    rw [Bool.and_eq_true] at hc
    cases rest with
    | nil => simp [headIsSpace] at hc
    | cons w r2 =>
      cases hdw : List.dropWhile pyIsSpace (w::r2) with
      | nil =>
        have hall : ∀ x ∈ (w::r2), pyIsSpace x = true := by
          intro x hx
          simpa using List.dropWhile_eq_nil_iff.mp hdw x hx
        rcases (trailOk_cons_iff c (w::r2) (by simp)).mp h with h1 | ⟨h2, h3⟩
        · have hf := trailOk_not_all_ws (w::r2) (by simp) hall
          rw [h1] at hf
          simp at hf
        · subst h2
          have hws : pyIsSpace ' ' = true := by decide
          rw [h3] at hdw
          simp [hws] at hdw
          have e : subSpacesAfterBullet ([] : List Char) = [] := by
            simp [subSpacesAfterBullet]
          rw [e]
          decide
      | cons d Y =>
        rw [hdw] at ih
        have hrest : trailOk (w::r2) = true := by
          rcases (trailOk_cons_iff c (w::r2) (by simp)).mp h with h1 | ⟨h2, h3⟩
          · exact h1
          · rw [h3] at hdw
            have hws : pyIsSpace ' ' = true := by decide
            simp [hws] at hdw
        have hdY : trailOk (d::Y) = true := by
          have h0 := trailOk_dropWhile_of pyIsSpace (by decide) (w::r2) hrest
          rwa [hdw] at h0
        have ihx := ih hdY
        cases hX : subSpacesAfterBullet (d::Y) with
        | nil => exact absurd hX (subSpacesAfterBullet_ne_nil d Y)
        | cons e Z =>
          rw [hX] at ihx
          refine (trailOk_cons_iff c (' '::e::Z) (by simp)).mpr (Or.inl ?_)
          exact (trailOk_cons_iff ' ' (e::Z) (by simp)).mpr (Or.inl ihx)
  | case3 c rest hc ih =>
    rw [subSpacesAfterBullet, if_neg hc]
    cases rest with
    | nil =>
      have e : subSpacesAfterBullet ([] : List Char) = [] := by
        simp [subSpacesAfterBullet]
      rw [e]
      exact h
    | cons d Y =>
      rcases (trailOk_cons_iff c (d::Y) (by simp)).mp h with h1 | ⟨h2, h3⟩
      · have ihx := ih h1
        cases hX : subSpacesAfterBullet (d::Y) with
        | nil => exact absurd hX (subSpacesAfterBullet_ne_nil d Y)
        | cons e Z =>
          rw [hX] at ihx
          exact (trailOk_cons_iff c (e::Z) (by simp)).mpr (Or.inl ihx)
      · subst h2
        rw [h3, subSpacesAfterBullet_single_space]
        decide

theorem subSpaceRuns_trailOk (s : List Char) (h : trailOk s = true) :
    trailOk (subSpaceRuns s) = true := by
  induction s using subSpaceRuns.induct with
  | case1 => simpa [subSpaceRuns] using h
  | case2 rest ih =>
    rw [subSpaceRuns, if_pos rfl]
    cases rest with
    | nil => exact absurd h (by decide)
    | cons w r2 =>
      have hrest : trailOk (w::r2) = true := by
        rcases (trailOk_cons_iff ' ' (w::r2) (by simp)).mp h with h1 | ⟨h2, _⟩
        · exact h1
        · simp at h2
      cases hdw : List.dropWhile (fun x => decide (x = ' ')) (w::r2) with
      | nil =>
        have hall : ∀ x ∈ (w::r2), pyIsSpace x = true := by
          intro x hx
          have hx2 := List.dropWhile_eq_nil_iff.mp hdw x hx
          have hx3 : x = ' ' := by simpa using hx2
          rw [hx3]
          decide
        have hf := trailOk_not_all_ws (w::r2) (by simp) hall
        rw [hrest] at hf
        simp at hf
      | cons d Y =>
        rw [hdw] at ih
        have hdY : trailOk (d::Y) = true := by
          have h0 := trailOk_dropWhile_of (fun x => decide (x = ' ')) (by decide)
            (w::r2) hrest
          rwa [hdw] at h0
        have ihx := ih hdY
        cases hX : subSpaceRuns (d::Y) with
        | nil => exact absurd hX (subSpaceRuns_ne_nil d Y)
        | cons e Z =>
          rw [hX] at ihx
          exact (trailOk_cons_iff ' ' (e::Z) (by simp)).mpr (Or.inl ihx)
  | case3 c rest hc ih =>
    rw [subSpaceRuns, if_neg hc]
    cases rest with
    | nil =>
      have e : subSpaceRuns ([] : List Char) = [] := by simp [subSpaceRuns]
      rw [e]
      exact h
    | cons d Y =>
      rcases (trailOk_cons_iff c (d::Y) (by simp)).mp h with h1 | ⟨h2, h3⟩
      · have ihx := ih h1
        cases hX : subSpaceRuns (d::Y) with
        | nil => exact absurd hX (subSpaceRuns_ne_nil d Y)
        | cons e Z =>
          rw [hX] at ihx
          exact (trailOk_cons_iff c (e::Z) (by simp)).mpr (Or.inl ihx)
      · subst h2
        rw [h3, subSpaceRuns_single_space]
        decide

theorem or_eq_true_elim {a b : Bool} (h : (a || b) = true) : a = true ∨ b = true := by
  simpa using h

theorem beforeBulletOk_dropWhile_ws (p q : Char) (s : List Char)
    (h : beforeBulletOk p s = true) :
    beforeBulletOk q (s.dropWhile pyIsSpace) = true := by
  induction s generalizing p q with
  | nil => simpa using h
  | cons c r ih =>
    simp only [beforeBulletOk, Bool.and_eq_true] at h
    by_cases hcw : pyIsSpace c = true
    · rw [List.dropWhile_cons_of_pos hcw]
      exact ih c q h.2
    · simp only [Bool.not_eq_true] at hcw
      rw [List.dropWhile_cons_of_neg (by simp [hcw])]
      simp only [beforeBulletOk, Bool.and_eq_true]
      exact ⟨by simp [hcw], h.2⟩

theorem beforeBulletOk_dropWhile_sp (p q : Char) (s : List Char)
    (h : beforeBulletOk p s = true) :
    beforeBulletOk q (s.dropWhile (fun x => decide (x = ' '))) = true := by
  induction s generalizing p q with
  | nil => simpa using h
  | cons c r ih =>
    simp only [beforeBulletOk, Bool.and_eq_true] at h
    by_cases hcs : c = ' '
    · rw [List.dropWhile_cons_of_pos (by simp [hcs])]
      exact ih c q h.2
    · rw [List.dropWhile_cons_of_neg (by simp [hcs])]
      simp only [beforeBulletOk, Bool.and_eq_true]
      refine ⟨?_, h.2⟩
      rcases or_eq_true_elim h.1 with h1 | h1
      · simp [h1]
      · rw [Bool.and_eq_true] at h1
        exact absurd (by simpa using h1.1) hcs

theorem beforeBulletOk_run (rest : List Char) :
    ∀ c : Char, pyIsSpace c = true → beforeBulletOk c rest = true →
      headIsBullet (rest.dropWhile pyIsSpace) = true → headIsBullet rest = true := by
  induction rest with
  | nil =>
    intro c _ _ hb
    simpa using hb
  | cons w r2 ih =>
    intro c hc h hb
    by_cases hww : pyIsSpace w = true
    · rw [List.dropWhile_cons_of_pos hww] at hb
      simp only [beforeBulletOk, Bool.and_eq_true] at h
      have hr2 : headIsBullet r2 = true := ih w hww h.2 hb
      exfalso
      rcases or_eq_true_elim h.1 with h1 | h1
      · rw [Bool.not_eq_true'] at h1
        rw [hww, hr2] at h1
        simp at h1
      · rw [Bool.and_eq_true] at h1
        have h2 := h1.2
        rw [hc] at h2
        simp at h2
    · simp only [Bool.not_eq_true] at hww
      rw [List.dropWhile_cons_of_neg (by simp [hww])] at hb
      exact hb

theorem beforeBulletOk_run_sp (rest : List Char) :
    ∀ c : Char, pyIsSpace c = true → beforeBulletOk c rest = true →
      headIsBullet (rest.dropWhile (fun x => decide (x = ' '))) = true →
      rest.dropWhile (fun x => decide (x = ' ')) = rest := by
  induction rest with
  | nil =>
    intro c _ _ _
    rfl
  | cons w r2 ih =>
    intro c hc h hb
    by_cases hws : w = ' '
    · exfalso
      rw [List.dropWhile_cons_of_pos (by simp [hws])] at hb
      simp only [beforeBulletOk, Bool.and_eq_true] at h
      have heq := ih w (by rw [hws]; decide) h.2 hb
      have hr2 : headIsBullet r2 = true := by
        rw [heq] at hb
        exact hb
      rcases or_eq_true_elim h.1 with h1 | h1
      · rw [Bool.not_eq_true'] at h1
        have hsp : pyIsSpace ' ' = true := by decide
        rw [hws, hsp, hr2] at h1
        simp at h1
      · rw [Bool.and_eq_true] at h1
        have h2 := h1.2
        rw [hc] at h2
        simp at h2
    · rw [List.dropWhile_cons_of_neg (by simp [hws])]

theorem subSpacesBeforeBullet_beforeBulletOk (s : List Char) :
    ∀ p : Char, (pyIsSpace p = true → sbbMatch s = false) →
      beforeBulletOk p (subSpacesBeforeBullet s) = true := by
  induction s using subSpacesBeforeBullet.induct with
  | case1 =>
    intro p _
    simp [subSpacesBeforeBullet, beforeBulletOk]
  | case2 c rest hc ih =>
    intro p hp
    rw [subSpacesBeforeBullet, if_pos hc]
    have hnp : pyIsSpace p = false := by
      by_cases hq : pyIsSpace p = true
      · have h0 := hp hq
        rw [sbbMatch] at h0
        rw [h0] at hc
        exact Bool.noConfusion hc
      · simpa using hq
    rw [Bool.and_eq_true] at hc
    cases hdw : List.dropWhile pyIsSpace rest with
    | nil =>
      have h2 := hc.2
      rw [hdw] at h2
      simp [headIsBullet] at h2
    | cons b t =>
      have hcb : isBullet b = true := by
        have h2 := hc.2
        rw [hdw] at h2
        simpa [headIsBullet] using h2
      have hbw : pyIsSpace b = false := bullet_not_ws b hcb
      rw [hdw] at ih
      simp only [List.tail_cons] at ih
      simp only [List.headD_cons, List.tail_cons]
      simp only [beforeBulletOk, Bool.and_eq_true]
      refine ⟨by simp [hnp], by simp [hbw], ?_⟩
      exact ih b (fun hq => by rw [hbw] at hq; exact Bool.noConfusion hq)
  | case3 c rest hc ih =>
    intro p hp
    rw [subSpacesBeforeBullet, if_neg hc]
    by_cases hwc : pyIsSpace c = true
    · have hnb : headIsBullet rest = false := by
        by_cases hx : headIsBullet rest = true
        · exfalso
          cases rest with
          | nil => simp [headIsBullet] at hx
          | cons w r2 =>
            have hww : pyIsSpace w = false :=
              bullet_not_ws w (by simpa [headIsBullet] using hx)
            have hdw : List.dropWhile pyIsSpace (w::r2) = w::r2 :=
              List.dropWhile_cons_of_neg (by simp [hww])
            exact hc (by simp [hdw, hwc, hx])
        · simp only [Bool.not_eq_true] at hx
          exact hx
      have hsm : sbbMatch rest = false := by
        cases rest with
        | nil => rfl
        | cons w r2 =>
          by_cases hww : pyIsSpace w = true
          · by_cases hb2 : headIsBullet (List.dropWhile pyIsSpace r2) = true
            · exfalso
              have hdw : List.dropWhile pyIsSpace (w::r2) =
                  List.dropWhile pyIsSpace r2 :=
                List.dropWhile_cons_of_pos hww
              exact hc (by rw [hdw]; simp [hwc, hb2])
            · simp only [Bool.not_eq_true] at hb2
              simp [sbbMatch, hb2]
          · simp only [Bool.not_eq_true] at hww
            simp [sbbMatch, hww]
      have hbb : headIsBullet (subSpacesBeforeBullet rest) = false := by
        by_cases hx : headIsBullet (subSpacesBeforeBullet rest) = true
        · have := headIsBullet_subSpacesBeforeBullet rest hx
          rw [hnb] at this
          exact Bool.noConfusion this
        · simp only [Bool.not_eq_true] at hx
          exact hx
      simp only [beforeBulletOk, Bool.and_eq_true]
      exact ⟨by simp [hbb], ih c (fun _ => hsm)⟩
    · simp only [Bool.not_eq_true] at hwc
      simp only [beforeBulletOk, Bool.and_eq_true]
      exact ⟨by simp [hwc], ih c (fun hq => by rw [hwc] at hq; exact Bool.noConfusion hq)⟩

theorem subSpacesAfterBullet_beforeBulletOk (s : List Char) :
    ∀ p : Char, beforeBulletOk p s = true →
      beforeBulletOk p (subSpacesAfterBullet s) = true := by
  induction s using subSpacesAfterBullet.induct with
  | case1 =>
    intro p _
    simp [subSpacesAfterBullet, beforeBulletOk]
  | case2 c rest hc ih =>
    intro p h
    rw [subSpacesAfterBullet, if_pos hc]
    rw [Bool.and_eq_true] at hc
    have hcw : pyIsSpace c = false := bullet_not_ws c hc.1
    simp only [beforeBulletOk, Bool.and_eq_true] at h
    have hD : beforeBulletOk ' ' (rest.dropWhile pyIsSpace) = true :=
      beforeBulletOk_dropWhile_ws c ' ' rest h.2
    have ihx := ih ' ' hD
    simp only [beforeBulletOk, Bool.and_eq_true]
    exact ⟨by simp [hcw], by simp [hcw], ihx⟩
  | case3 c rest hc ih =>
    intro p h
    rw [subSpacesAfterBullet, if_neg hc]
    simp only [beforeBulletOk, Bool.and_eq_true] at h
    simp only [beforeBulletOk, Bool.and_eq_true]
    refine ⟨?_, ih c h.2⟩
    have hh : headIsBullet (subSpacesAfterBullet rest) = headIsBullet rest :=
      headIsBullet_of_head_eq _ _ (subSpacesAfterBullet_head rest)
    rw [hh]
    exact h.1

theorem subSpaceRuns_beforeBulletOk (s : List Char) :
    ∀ p : Char, beforeBulletOk p s = true →
      beforeBulletOk p (subSpaceRuns s) = true := by
  induction s using subSpaceRuns.induct with
  | case1 =>
    intro p _
    simp [subSpaceRuns, beforeBulletOk]
  | case2 rest ih =>
    intro p h
    rw [subSpaceRuns, if_pos rfl]
    simp only [beforeBulletOk, Bool.and_eq_true] at h
    by_cases hbx : headIsBullet (List.dropWhile (fun x => decide (x = ' ')) rest) = true
    · have heq : List.dropWhile (fun x => decide (x = ' ')) rest = rest :=
        beforeBulletOk_run_sp rest ' ' (by decide) h.2 hbx
      have hbr : headIsBullet rest = true := by
        rw [heq] at hbx
        exact hbx
      have hnp : pyIsSpace p = false := by
        rcases or_eq_true_elim h.1 with h1 | h1
        · rw [Bool.not_eq_true'] at h1
          rw [hbr] at h1
          simp at h1
          exact absurd h1 (by decide)
        · rw [Bool.and_eq_true] at h1
          simpa using h1.2
      rw [heq] at ih ⊢
      simp only [beforeBulletOk, Bool.and_eq_true]
      exact ⟨by simp [hnp], ih ' ' h.2⟩
    · simp only [Bool.not_eq_true] at hbx
      have hD : beforeBulletOk ' '
          (List.dropWhile (fun x => decide (x = ' ')) rest) = true :=
        beforeBulletOk_dropWhile_sp ' ' ' ' rest h.2
      have ihx := ih ' ' hD
      simp only [beforeBulletOk, Bool.and_eq_true]
      refine ⟨?_, ihx⟩
      have hh : headIsBullet
          (subSpaceRuns (List.dropWhile (fun x => decide (x = ' ')) rest)) =
          headIsBullet (List.dropWhile (fun x => decide (x = ' ')) rest) :=
        headIsBullet_of_head_eq _ _ (subSpaceRuns_head _)
      simp [hh, hbx]
  | case3 c rest hc ih =>
    intro p h
    rw [subSpaceRuns, if_neg hc]
    simp only [beforeBulletOk, Bool.and_eq_true] at h
    simp only [beforeBulletOk, Bool.and_eq_true]
    refine ⟨?_, ih c h.2⟩
    have hh : headIsBullet (subSpaceRuns rest) = headIsBullet rest :=
      headIsBullet_of_head_eq _ _ (subSpaceRuns_head rest)
    rw [hh]
    exact h.1

theorem subSpacesBeforeBullet_id (s : List Char) :
    ∀ p : Char, beforeBulletOk p s = true → subSpacesBeforeBullet s = s := by
  induction s using subSpacesBeforeBullet.induct with
  | case1 =>
    intro p _
    simp [subSpacesBeforeBullet]
  | case2 c rest hc ih =>
    intro p h
    rw [subSpacesBeforeBullet, if_pos hc]
    rw [Bool.and_eq_true] at hc
    simp only [beforeBulletOk, Bool.and_eq_true] at h
    have hbr : headIsBullet rest = true :=
      beforeBulletOk_run rest c hc.1 h.2 hc.2
    cases rest with
    | nil => simp [headIsBullet] at hbr
    | cons b t =>
      have hbw : pyIsSpace b = false :=
        bullet_not_ws b (by simpa [headIsBullet] using hbr)
      have hdw : List.dropWhile pyIsSpace (b::t) = b::t :=
        List.dropWhile_cons_of_neg (by simp [hbw])
      rw [hdw]
      simp only [List.headD_cons, List.tail_cons]
      have hceq : c = ' ' := by
        rcases or_eq_true_elim h.1 with h1 | h1
        · exfalso
          rw [Bool.not_eq_true'] at h1
          rw [hc.1, hbr] at h1
          simp at h1
        · rw [Bool.and_eq_true] at h1
          simpa using h1.1
      subst hceq
      have hbbt : beforeBulletOk b t = true := by
        have h2 := h.2
        simp only [beforeBulletOk, Bool.and_eq_true] at h2
        exact h2.2
      rw [hdw] at ih
      simp only [List.tail_cons] at ih
      rw [ih b hbbt]
  | case3 c rest hc ih =>
    intro p h
    rw [subSpacesBeforeBullet, if_neg hc]
    simp only [beforeBulletOk, Bool.and_eq_true] at h
    rw [ih c h.2]

theorem dropWhile_sp_headNotWs (t : List Char) (h : headNotWs t = true) :
    t.dropWhile (fun x => decide (x = ' ')) = t := by
  cases t with
  | nil => rfl
  | cons u v =>
    simp only [headNotWs, Bool.not_eq_true'] at h
    refine List.dropWhile_cons_of_neg ?_
    simp only [decide_eq_true_eq]
    intro hu
    rw [hu] at h
    exact absurd h (by decide)

theorem bulletSpaced_dropWhile_ws (s : List Char) :
    bulletSpaced (s.dropWhile pyIsSpace) = bulletSpaced s := by
  induction s with
  | nil => rfl
  | cons c r ih =>
    by_cases hw : pyIsSpace c = true
    · have hcn : ¬ (c = '•') := by
        intro hcc
        rw [hcc] at hw
        exact absurd hw (by decide)
      rw [List.dropWhile_cons_of_pos hw, ih, bulletSpaced_cons_ne c r hcn]
    · rw [List.dropWhile_cons_of_neg (by simpa using hw)]

theorem bulletSpaced_dropWhile_sp (s : List Char) :
    bulletSpaced (s.dropWhile (fun x => decide (x = ' '))) = bulletSpaced s := by
  induction s with
  | nil => rfl
  | cons c r ih =>
    by_cases hw : c = ' '
    · rw [List.dropWhile_cons_of_pos (by simp [hw]), ih,
        bulletSpaced_cons_ne c r (by rw [hw]; decide)]
    · rw [List.dropWhile_cons_of_neg (by simp [hw])]

theorem dashSpaced_dropWhile_sp (s : List Char) :
    dashSpaced (s.dropWhile (fun x => decide (x = ' '))) = dashSpaced s := by
  induction s with
  | nil => rfl
  | cons c r ih =>
    by_cases hw : c = ' '
    · rw [List.dropWhile_cons_of_pos (by simp [hw]), ih,
        dashSpaced_cons_ne c r (by rw [hw]; decide)]
    · rw [List.dropWhile_cons_of_neg (by simp [hw])]

theorem bulletSpaced_g6_aux : ∀ n : ℕ,
    (∀ t : List Char, t.length + 1 ≤ n → bulletSpaced ('•' :: t) = true →
      bulletSpaced ('•' :: subSpacesBeforeBullet t) = true) ∧
    (∀ s : List Char, s.length ≤ n → bulletSpaced s = true →
      bulletSpaced (subSpacesBeforeBullet s) = true) := by
  intro n
  induction n using Nat.strong_induction_on with
  | _ n ih =>
    have hB : ∀ t : List Char, t.length + 1 ≤ n → bulletSpaced ('•' :: t) = true →
        bulletSpaced ('•' :: subSpacesBeforeBullet t) = true := by
      intro t hlen hb
      cases t with
      | nil => simp [bulletSpaced] at hb
      | cons d t4 =>
        rw [bulletSpaced, if_pos rfl] at hb
        rw [Bool.and_eq_true, Bool.and_eq_true] at hb
        obtain ⟨⟨hd, hnw⟩, hbt4⟩ := hb
        have hd2 : d = ' ' := by simpa using hd
        subst hd2
        simp only [List.length_cons] at hlen
        have hdw4 : List.dropWhile pyIsSpace t4 = t4 := dropWhile_headNotWs t4 hnw
        by_cases hib : headIsBullet t4 = true
        · cases t4 with
          | nil => simp [headIsBullet] at hib
          | cons b2 t5 =>
            simp only [List.length_cons] at hlen
            have hsp : pyIsSpace ' ' = true := by decide
            have hcond : (pyIsSpace ' ' &&
                headIsBullet (List.dropWhile pyIsSpace (b2::t5))) = true := by
              rw [hdw4, hsp, hib]
              rfl
            rw [subSpacesBeforeBullet, if_pos hcond, hdw4]
            simp only [List.headD_cons, List.tail_cons]
            rw [bulletSpaced, if_pos rfl]
            rw [Bool.and_eq_true, Bool.and_eq_true]
            have hb2 : isBullet b2 = true := by simpa [headIsBullet] using hib
            refine ⟨⟨by simp, ?_⟩, ?_⟩
            · simp [headNotWs, bullet_not_ws b2 hb2]
            · have h2 : b2 = '•' ∨ b2 = '-' := by simpa [isBullet] using hb2
              rcases h2 with hbe | hbe
              · subst hbe
                exact (ih (t5.length + 1) (by omega)).1 t5 (le_refl _) hbt4
              · subst hbe
                rw [bulletSpaced_cons_ne '-' _ (by decide)]
                have hbt5 : bulletSpaced t5 = true := by
                  rw [bulletSpaced_cons_ne '-' _ (by decide)] at hbt4
                  exact hbt4
                exact (ih t5.length (by omega)).2 t5 (le_refl _) hbt5
        · simp only [Bool.not_eq_true] at hib
          have hcond : ¬ ((pyIsSpace ' ' &&
              headIsBullet (List.dropWhile pyIsSpace t4)) = true) := by
            rw [hdw4, hib]
            simp
          rw [subSpacesBeforeBullet, if_neg hcond]
          rw [bulletSpaced, if_pos rfl]
          rw [Bool.and_eq_true, Bool.and_eq_true]
          refine ⟨⟨by simp, ?_⟩, ?_⟩
          · exact subSpacesBeforeBullet_headNotWs t4 hnw
          · exact (ih t4.length (by omega)).2 t4 (le_refl _) hbt4
    refine ⟨hB, ?_⟩
    intro s hlen hb
    cases s with
    | nil => simp [subSpacesBeforeBullet, bulletSpaced]
    | cons c rest =>
      simp only [List.length_cons] at hlen
      by_cases hcond : (pyIsSpace c && headIsBullet (List.dropWhile pyIsSpace rest)) = true
      · rw [subSpacesBeforeBullet, if_pos hcond]
        rw [Bool.and_eq_true] at hcond
        have hcnb : ¬ (c = '•') := by
          intro hcc
          rw [hcc] at hcond
          exact absurd hcond.1 (by decide)
        have hbrest : bulletSpaced rest = true := by
          rw [bulletSpaced_cons_ne c rest hcnb] at hb
          exact hb
        cases hdw : List.dropWhile pyIsSpace rest with
        | nil =>
          have h2 := hcond.2
          rw [hdw] at h2
          simp [headIsBullet] at h2
        | cons b t3 =>
          have hlt : (b::t3).length ≤ rest.length := by
            rw [← hdw]
            exact (List.dropWhile_sublist _).length_le
          simp only [List.length_cons] at hlt
          have hbt3 : bulletSpaced (b::t3) = true := by
            have e := bulletSpaced_dropWhile_ws rest
            rw [hdw] at e
            rw [e]
            exact hbrest
          simp only [List.headD_cons, List.tail_cons]
          rw [bulletSpaced_cons_ne ' ' _ (by decide)]
          have hcb : isBullet b = true := by
            have h2 := hcond.2
            rw [hdw] at h2
            simpa [headIsBullet] using h2
          have h2 : b = '•' ∨ b = '-' := by simpa [isBullet] using hcb
          rcases h2 with hbe | hbe
          · subst hbe
            exact (ih (t3.length + 1) (by omega)).1 t3 (le_refl _) hbt3
          · subst hbe
            rw [bulletSpaced_cons_ne '-' _ (by decide)]
            have hbt32 : bulletSpaced t3 = true := by
              rw [bulletSpaced_cons_ne '-' _ (by decide)] at hbt3
              exact hbt3
            exact (ih t3.length (by omega)).2 t3 (le_refl _) hbt32
      · rw [subSpacesBeforeBullet, if_neg hcond]
        by_cases hce : c = '•'
        · subst hce
          exact hB rest hlen hb
        · rw [bulletSpaced_cons_ne c _ hce]
          rw [bulletSpaced_cons_ne c rest hce] at hb
          exact (ih rest.length (by omega)).2 rest (le_refl _) hb

theorem bulletSpaced_subSpacesBeforeBullet (s : List Char)
    (h : bulletSpaced s = true) :
    bulletSpaced (subSpacesBeforeBullet s) = true :=
  (bulletSpaced_g6_aux s.length).2 s (le_refl _) h

theorem bulletSpaced_subSpacesAfterBullet (s : List Char)
    (h : bulletSpaced s = true) :
    bulletSpaced (subSpacesAfterBullet s) = true := by
  induction s using subSpacesAfterBullet.induct with
  | case1 => simp [subSpacesAfterBullet, bulletSpaced]
  | case2 c rest hc ih =>
    rw [subSpacesAfterBullet, if_pos hc]
    rw [Bool.and_eq_true] at hc
    have h2 : c = '•' ∨ c = '-' := by simpa [isBullet] using hc.1
    rcases h2 with hce | hce
    · subst hce
      cases rest with
      | nil => simp [bulletSpaced] at h
      | cons d t4 =>
        rw [bulletSpaced, if_pos rfl] at h
        rw [Bool.and_eq_true, Bool.and_eq_true] at h
        obtain ⟨⟨hd, hnw⟩, hbt4⟩ := h
        have hd2 : d = ' ' := by simpa using hd
        subst hd2
        have hdw : List.dropWhile pyIsSpace (' '::t4) = t4 := by
          rw [List.dropWhile_cons_of_pos (by decide)]
          exact dropWhile_headNotWs t4 hnw
        rw [hdw] at ih
        rw [hdw]
        rw [bulletSpaced, if_pos rfl]
        rw [Bool.and_eq_true, Bool.and_eq_true]
        refine ⟨⟨by simp, ?_⟩, ?_⟩
        · exact subSpacesAfterBullet_headNotWs t4 hnw
        · exact ih hbt4
    · subst hce
      rw [bulletSpaced_cons_ne '-' rest (by decide)] at h
      rw [bulletSpaced_cons_ne '-' _ (by decide), bulletSpaced_cons_ne ' ' _ (by decide)]
      apply ih
      rw [bulletSpaced_dropWhile_ws]
      exact h
  | case3 c rest hc ih =>
    rw [subSpacesAfterBullet, if_neg hc]
    by_cases hce : c = '•'
    · subst hce
      cases rest with
      | nil => simp [bulletSpaced] at h
      | cons d t4 =>
        rw [bulletSpaced, if_pos rfl] at h
        rw [Bool.and_eq_true, Bool.and_eq_true] at h
        have hd2 : d = ' ' := by simpa using h.1.1
        subst hd2
        exfalso
        have h1 : headIsSpace (' '::t4) = true := by
          rw [headIsSpace]
          decide
        exact hc (by rw [Bool.and_eq_true]; exact ⟨by decide, h1⟩)
    · rw [bulletSpaced_cons_ne c _ hce]
      rw [bulletSpaced_cons_ne c rest hce] at h
      exact ih h

theorem bulletSpaced_subSpaceRuns (s : List Char) (h : bulletSpaced s = true) :
    bulletSpaced (subSpaceRuns s) = true := by
  induction s using subSpaceRuns.induct with
  | case1 => simp [subSpaceRuns, bulletSpaced]
  | case2 rest ih =>
    rw [subSpaceRuns, if_pos rfl]
    rw [bulletSpaced_cons_ne ' ' rest (by decide)] at h
    rw [bulletSpaced_cons_ne ' ' _ (by decide)]
    apply ih
    rw [bulletSpaced_dropWhile_sp]
    exact h
  | case3 c rest hc ih =>
    rw [subSpaceRuns, if_neg hc]
    by_cases hce : c = '•'
    · subst hce
      cases rest with
      | nil => simp [bulletSpaced] at h
      | cons d t4 =>
        rw [bulletSpaced, if_pos rfl] at h
        rw [Bool.and_eq_true, Bool.and_eq_true] at h
        obtain ⟨⟨hd, hnw⟩, hbt4⟩ := h
        have hd2 : d = ' ' := by simpa using hd
        subst hd2
        have hdw : List.dropWhile (fun x => decide (x = ' ')) t4 = t4 :=
          dropWhile_sp_headNotWs t4 hnw
        have e : subSpaceRuns (' '::t4) = ' ' :: subSpaceRuns t4 := by
          rw [subSpaceRuns, if_pos rfl, hdw]
        rw [e]
        rw [bulletSpaced, if_pos rfl]
        rw [Bool.and_eq_true, Bool.and_eq_true]
        refine ⟨⟨by simp, ?_⟩, ?_⟩
        · exact subSpaceRuns_headNotWs t4 hnw
        · have ihx := ih (by rw [bulletSpaced_cons_ne ' ' t4 (by decide)]; exact hbt4)
          rw [e, bulletSpaced_cons_ne ' ' _ (by decide)] at ihx
          exact ihx
    · rw [bulletSpaced_cons_ne c rest hce] at h
      rw [bulletSpaced_cons_ne c _ hce]
      exact ih h

theorem dashSpaced_subSpaceRuns (s : List Char) (h : dashSpaced s = true) :
    dashSpaced (subSpaceRuns s) = true := by
  induction s using subSpaceRuns.induct with
  | case1 => simp [subSpaceRuns, dashSpaced]
  | case2 rest ih =>
    rw [subSpaceRuns, if_pos rfl]
    rw [dashSpaced_cons_ne ' ' rest (by decide)] at h
    rw [dashSpaced_cons_ne ' ' _ (by decide)]
    apply ih
    rw [dashSpaced_dropWhile_sp]
    exact h
  | case3 c rest hc ih =>
    rw [subSpaceRuns, if_neg hc]
    by_cases hce : c = '-'
    · subst hce
      cases rest with
      | nil =>
        have e : subSpaceRuns ([] : List Char) = [] := by simp [subSpaceRuns]
        rw [e]
        simp [dashSpaced]
      | cons d t4 =>
        by_cases hwd : pyIsSpace d = true
        · rw [dashSpaced, if_pos (by rw [Bool.and_eq_true]; exact ⟨by decide, hwd⟩)] at h
          rw [Bool.and_eq_true, Bool.and_eq_true] at h
          obtain ⟨⟨hd, hnw⟩, hdt4⟩ := h
          have hd2 : d = ' ' := by simpa using hd
          subst hd2
          have hdw : List.dropWhile (fun x => decide (x = ' ')) t4 = t4 :=
            dropWhile_sp_headNotWs t4 hnw
          have e : subSpaceRuns (' '::t4) = ' ' :: subSpaceRuns t4 := by
            rw [subSpaceRuns, if_pos rfl, hdw]
          rw [e]
          rw [dashSpaced, if_pos (by rw [Bool.and_eq_true]; exact ⟨by decide, by decide⟩)]
          rw [Bool.and_eq_true, Bool.and_eq_true]
          refine ⟨⟨by simp, ?_⟩, ?_⟩
          · exact subSpaceRuns_headNotWs t4 hnw
          · have ihx := ih (by rw [dashSpaced_cons_ne ' ' t4 (by decide)]; exact hdt4)
            rw [e, dashSpaced_cons_ne ' ' _ (by decide)] at ihx
            exact ihx
        · rw [dashSpaced, if_neg (by simp [hwd])] at h
          have hdne : ¬ (d = ' ') := by
            intro hdd
            rw [hdd] at hwd
            exact hwd (by decide)
          have e : subSpaceRuns (d::t4) = d :: subSpaceRuns t4 :=
            subSpaceRuns_cons_ne d t4 hdne
          rw [e]
          rw [dashSpaced, if_neg (by simp [hwd])]
          rw [← e]
          exact ih h
    · rw [dashSpaced_cons_ne c rest hce] at h
      rw [dashSpaced_cons_ne c _ hce]
      exact ih h

theorem pyRstrip_cons_space (t : List Char) :
    pyRstrip (' '::t) = if pyRstrip t = [] then [] else ' ' :: pyRstrip t := by
  rw [pyRstrip]
  cases hy : pyRstrip t with
  | nil => simp [pyIsSpace]
  | cons a b => simp

theorem subSmallBullet_pyRstrip_aux : ∀ n : ℕ, ∀ s : List Char, s.length ≤ n →
    bulletSpaced s = true → trailOk s = true →
    subSmallBullet (pyRstrip s) = s := by
  intro n
  induction n with
  | zero =>
    intro s hlen _ _
    have hs : s = [] := List.length_eq_zero.mp (Nat.le_zero.mp hlen)
    subst hs
    simp [pyRstrip, subSmallBullet]
  | succ n ih =>
    intro s hlen hb ht
    cases s with
    | nil => simp [pyRstrip, subSmallBullet]
    | cons c rest =>
      simp only [List.length_cons] at hlen
      cases hx : pyRstrip rest with
      | nil =>
        have hall : ∀ x ∈ rest, pyIsSpace x = true := (pyRstrip_eq_nil_iff rest).mp hx
        have hps : pyRstrip (c::rest) =
            (if pyIsSpace c = true then [] else [c]) := by
          rw [pyRstrip, hx]
        rw [hps]
        by_cases hwc : pyIsSpace c = true
        · exfalso
          have hallc : ∀ x ∈ (c::rest), pyIsSpace x = true := by
            intro x hx2
            rcases List.mem_cons.mp hx2 with h1 | h1
            · rw [h1]; exact hwc
            · exact hall x h1
          have hf := trailOk_not_all_ws (c::rest) (by simp) hallc
          rw [ht] at hf
          exact Bool.noConfusion hf
        · rw [if_neg hwc]
          by_cases hcb : c = '•'
          · subst hcb
            rw [subSmallBullet, if_pos rfl]
            have hrest : rest = [' '] := by
              cases rest with
              | nil =>
                exfalso
                simp [bulletSpaced] at hb
              | cons d Y =>
                rw [bulletSpaced, if_pos rfl] at hb
                rw [Bool.and_eq_true, Bool.and_eq_true] at hb
                obtain ⟨⟨hdd, hnw⟩, hbY⟩ := hb
                have hd2 : d = ' ' := by simpa using hdd
                subst hd2
                cases Y with
                | nil => rfl
                | cons e Z =>
                  exfalso
                  simp only [headNotWs, Bool.not_eq_true'] at hnw
                  have he : pyIsSpace e = true := hall e (by simp)
                  rw [hnw] at he
                  exact Bool.noConfusion he
            have e0 : List.dropWhile pyIsSpace ([] : List Char) = [] := rfl
            rw [e0]
            have e1 : subSmallBullet ([] : List Char) = [] := by simp [subSmallBullet]
            rw [e1, hrest]
          · rw [subSmallBullet, if_neg hcb]
            have e1 : subSmallBullet ([] : List Char) = [] := by simp [subSmallBullet]
            rw [e1]
            have hrest : rest = [] := by
              cases rest with
              | nil => rfl
              | cons d Y =>
                exfalso
                rcases (trailOk_cons_iff c (d::Y) (by simp)).mp ht with h1 | ⟨h2, _⟩
                · have hf := trailOk_not_all_ws (d::Y) (by simp) hall
                  rw [h1] at hf
                  exact Bool.noConfusion hf
                · exact hcb h2
            rw [hrest]
      | cons r1 r2 =>
        have hps : pyRstrip (c::rest) = c :: r1 :: r2 := by
          rw [pyRstrip, hx]
        rw [hps]
        by_cases hcb : c = '•'
        · subst hcb
          cases rest with
          | nil => simp [pyRstrip] at hx
          | cons d t =>
            rw [bulletSpaced, if_pos rfl] at hb
            rw [Bool.and_eq_true, Bool.and_eq_true] at hb
            obtain ⟨⟨hdd, hnw⟩, hbt⟩ := hb
            have hd2 : d = ' ' := by simpa using hdd
            subst hd2
            rw [pyRstrip_cons_space] at hx
            by_cases hy : pyRstrip t = []
            · rw [if_pos hy] at hx
              exact absurd hx (by simp)
            · rw [if_neg hy] at hx
              rw [subSmallBullet, if_pos rfl]
              rw [← hx]
              rw [List.dropWhile_cons_of_pos (by decide)]
              have hnwp : headNotWs (pyRstrip t) = true := headNotWs_pyRstrip t hnw
              rw [dropWhile_headNotWs _ hnwp]
              have htt : trailOk t = true := by
                rcases (trailOk_cons_iff '•' (' '::t) (by simp)).mp ht with h1 | ⟨_, h3⟩
                · cases t with
                  | nil => simp [trailOk]
                  | cons e Z =>
                    rcases (trailOk_cons_iff ' ' (e::Z) (by simp)).mp h1 with h4 | ⟨h5, _⟩
                    · exact h4
                    · simp at h5
                · have ht0 : t = [] := by simpa using h3
                  rw [ht0]
                  simp [trailOk]
              simp only [List.length_cons] at hlen
              have hrec := ih t (by omega) hbt htt
              rw [hrec]
        · rw [subSmallBullet, if_neg hcb]
          have hbrest : bulletSpaced rest = true := by
            rw [bulletSpaced_cons_ne c rest hcb] at hb
            exact hb
          have htrest : trailOk rest = true := by
            cases rest with
            | nil => simp [trailOk]
            | cons d Y =>
              rcases (trailOk_cons_iff c (d::Y) (by simp)).mp ht with h1 | ⟨h2, _⟩
              · exact h1
              · exact absurd h2 hcb
          have hrec := ih rest (by omega) hbrest htrest
          rw [← hx, hrec]

theorem subSmallBullet_pyRstrip (s : List Char) (hb : bulletSpaced s = true)
    (ht : trailOk s = true) : subSmallBullet (pyRstrip s) = s :=
  subSmallBullet_pyRstrip_aux s.length s (le_refl _) hb ht

theorem subSpacesAfterBullet_id (s : List Char) (hb : bulletSpaced s = true)
    (hd : dashSpaced s = true) : subSpacesAfterBullet s = s := by
  induction s using subSpacesAfterBullet.induct with
  | case1 => simp [subSpacesAfterBullet]
  | case2 c rest hc ih =>
    rw [subSpacesAfterBullet, if_pos hc]
    rw [Bool.and_eq_true] at hc
    have h2 : c = '•' ∨ c = '-' := by simpa [isBullet] using hc.1
    cases rest with
    | nil => exact absurd hc.2 (by decide)
    | cons d r =>
      rcases h2 with hce | hce
      · subst hce
        rw [bulletSpaced, if_pos rfl] at hb
        rw [Bool.and_eq_true, Bool.and_eq_true] at hb
        obtain ⟨⟨hdd, hnw⟩, hbr⟩ := hb
        have hd2 : d = ' ' := by simpa using hdd
        subst hd2
        have hdw : List.dropWhile pyIsSpace (' '::r) = r := by
          rw [List.dropWhile_cons_of_pos (by decide)]
          exact dropWhile_headNotWs r hnw
        rw [hdw] at ih ⊢
        have hdr : dashSpaced r = true := by
          rw [dashSpaced_cons_ne '•' (' '::r) (by decide),
            dashSpaced_cons_ne ' ' r (by decide)] at hd
          exact hd
        rw [ih hbr hdr]
      · subst hce
        have hwd : pyIsSpace d = true := by simpa [headIsSpace] using hc.2
        rw [dashSpaced, if_pos (by rw [Bool.and_eq_true]; exact ⟨by decide, hwd⟩)] at hd
        rw [Bool.and_eq_true, Bool.and_eq_true] at hd
        obtain ⟨⟨hdd, hnw⟩, hdr⟩ := hd
        have hd2 : d = ' ' := by simpa using hdd
        subst hd2
        have hdw : List.dropWhile pyIsSpace (' '::r) = r := by
          rw [List.dropWhile_cons_of_pos (by decide)]
          exact dropWhile_headNotWs r hnw
        rw [hdw] at ih ⊢
        have hbr : bulletSpaced r = true := by
          rw [bulletSpaced_cons_ne '-' (' '::r) (by decide),
            bulletSpaced_cons_ne ' ' r (by decide)] at hb
          exact hb
        rw [ih hbr hdr]
  | case3 c rest hc ih =>
    rw [subSpacesAfterBullet, if_neg hc]
    have hbrest : bulletSpaced rest = true := by
      by_cases hce : c = '•'
      · subst hce
        cases rest with
        | nil => simp [bulletSpaced] at hb
        | cons d Y =>
          rw [bulletSpaced, if_pos rfl] at hb
          rw [Bool.and_eq_true, Bool.and_eq_true] at hb
          have hd2 : d = ' ' := by simpa using hb.1.1
          exfalso
          apply hc
          rw [Bool.and_eq_true]
          refine ⟨by decide, ?_⟩
          rw [hd2, headIsSpace]
          decide
      · rw [bulletSpaced_cons_ne c rest hce] at hb
        exact hb
    have hdrest : dashSpaced rest = true := by
      by_cases hce : c = '-'
      · subst hce
        cases rest with
        | nil => simp [dashSpaced]
        | cons d Y =>
          by_cases hwd : pyIsSpace d = true
          · exfalso
            apply hc
            rw [Bool.and_eq_true]
            exact ⟨by decide, by simpa [headIsSpace] using hwd⟩
          · rw [dashSpaced, if_neg (by simp [hwd])] at hd
            exact hd
      · rw [dashSpaced_cons_ne c rest hce] at hd
        exact hd
    rw [ih hbrest hdrest]

/-- Every invariant established by the `clean_text` pipeline on its output. -/
theorem clean_text_props (x : List Char) :
    headNotWs (clean_text x) = true ∧ bulletSpaced (clean_text x) = true ∧
    dashSpaced (clean_text x) = true ∧ trailOk (clean_text x) = true ∧
    noTwoSpaces (clean_text x) = true ∧ beforeBulletOk 'x' (clean_text x) = true ∧
    '\n' ∉ clean_text x ∧ '●' ∉ clean_text x := by
  by_cases hx : x = []
  · rw [clean_text, if_pos hx]
    exact ⟨rfl, rfl, rfl, rfl, rfl, rfl, by simp, by simp⟩
  · rw [clean_text, if_neg hx]
    refine ⟨?_, ?_, ?_, ?_, ?_, ?_, ?_, ?_⟩
    · exact subSpaceRuns_headNotWs _ (subSpacesAfterBullet_headNotWs _
        (subSpacesBeforeBullet_headNotWs _ (subSmallBullet_headNotWs _
          (subBigBullet_headNotWs _ (headNotWs_pyStrip _)))))
    · exact bulletSpaced_subSpaceRuns _ (bulletSpaced_subSpacesAfterBullet _
        (bulletSpaced_subSpacesBeforeBullet _ (bulletSpaced_subSmallBullet _)))
    · exact dashSpaced_subSpaceRuns _ (dashSpaced_subSpacesAfterBullet _)
    · refine subSpaceRuns_trailOk _ (subSpacesAfterBullet_trailOk _
        (subSpacesBeforeBullet_trailOk _ (subSmallBullet_trailOk _
          (subBigBullet_trailOk _ ?_))))
      unfold pyStrip
      exact trailOk_pyRstrip _
    · exact noTwoSpaces_subSpaceRuns _
    · exact subSpaceRuns_beforeBulletOk _ 'x' (subSpacesAfterBullet_beforeBulletOk _ 'x'
        (subSpacesBeforeBullet_beforeBulletOk _ 'x' (fun hq => absurd hq (by decide))))
    · exact subSpaceRuns_notMem _ (by decide) _ (subSpacesAfterBullet_notMem _ (by decide) _
        (subSpacesBeforeBullet_notMem _ (by decide) _ (subSmallBullet_notMem _ (by decide)
          (by decide) _ (subBigBullet_notMem _ (by decide) (by decide) _
            (pyStrip_notMem _ _ (subMultiSpaces_notMem _ (by decide) _
              (subNewlines_no_nl x)))))))
    · exact subSpaceRuns_notMem _ (by decide) _ (subSpacesAfterBullet_notMem _ (by decide) _
        (subSpacesBeforeBullet_notMem _ (by decide) _ (subSmallBullet_notMem _ (by decide)
          (by decide) _ (subBigBullet_no_big _))))

/-- On a string satisfying the pipeline invariants, `clean_text` is the
identity (the stripped trailing "• " space is re-created by the small-bullet
substitution). -/
theorem clean_text_idem_aux (o : List Char)
    (hnw : headNotWs o = true) (hbs : bulletSpaced o = true)
    (hds : dashSpaced o = true) (hto : trailOk o = true)
    (hnt : noTwoSpaces o = true) (hbb : beforeBulletOk 'x' o = true)
    (hnl : '\n' ∉ o) (hbig : '●' ∉ o) : clean_text o = o := by
  by_cases ho : o = []
  · rw [ho]
    simp [clean_text]
  · rw [clean_text, if_neg ho]
    rw [subNewlines_id o hnl]
    rw [subMultiSpaces_id o hnt]
    rw [show pyStrip o = pyRstrip o from by
      unfold pyStrip pyLstrip
      rw [dropWhile_headNotWs o hnw]]
    rw [subBigBullet_id (pyRstrip o) (pyRstrip_notMem '●' o hbig)]
    rw [subSmallBullet_pyRstrip o hbs hto]
    rw [subSpacesBeforeBullet_id o 'x' hbb]
    rw [subSpacesAfterBullet_id o hbs hds]
    rw [subSpaceRuns_id o hnt]

theorem ciEq_length (a b : List Char) (h : ciEq a b = true) : a.length = b.length := by
  induction a generalizing b with
  | nil =>
    cases b with
    | nil => rfl
    | cons y ys => simp [ciEq] at h
  | cons x xs ih =>
    cases b with
    | nil => simp [ciEq] at h
    | cons y ys =>
      rw [ciEq, Bool.and_eq_true] at h
      simp [ih ys h.2]

theorem ciEq_append_split (k x y : List Char) (h : ciEq k (x ++ y) = true) :
    ciEq (k.take x.length) x = true ∧ ciEq (k.drop x.length) y = true := by
  induction x generalizing k with
  | nil => exact ⟨by simp [ciEq], by simpa using h⟩
  | cons a x2 ih =>
    cases k with
    | nil => simp [ciEq] at h
    | cons b k2 =>
      rw [List.cons_append, ciEq, Bool.and_eq_true] at h
      obtain ⟨hab, h2⟩ := h
      obtain ⟨ih1, ih2⟩ := ih k2 h2
      constructor
      · rw [List.length_cons, List.take_succ_cons, ciEq, Bool.and_eq_true]
        exact ⟨hab, ih1⟩
      · rw [List.length_cons, List.drop_succ_cons]
        exact ih2

theorem ciEq_head (a b : Char) (as bs : List Char)
    (h : ciEq (a::as) (b::bs) = true) : a.toUpper = b.toUpper := by
  rw [ciEq, Bool.and_eq_true] at h
  simpa using h.1

set_option maxRecDepth 10000 in
theorem learning_not_at_join (kws : List (List Char))
    (hkws : ∀ k ∈ kws, k ∈ skillPatterns.flatten) :
    ciEq "Learning".toList ((pyJoin " ".toList kws).take 8) = false := by
  cases kws with
  | nil => decide
  | cons k1 rest =>
    have hk1 : k1 ∈ skillPatterns.flatten := hkws k1 (List.mem_cons_self _ _)
    have hf : ∀ k ∈ skillPatterns.flatten,
        ciEq "Learning".toList (k.take 8) = false := by decide
    cases rest with
    | nil => exact hf k1 hk1
    | cons k2 rest2 =>
      have e : pyJoin " ".toList (k1 :: k2 :: rest2) =
          k1 ++ ' ' :: pyJoin " ".toList (k2 :: rest2) := by
        rw [pyJoin]
        simp [List.append_assoc]
        simp
      rw [e]
      by_cases hl8 : 8 ≤ k1.length
      · rw [List.take_append_of_le_length hl8]
        exact hf k1 hk1
      · rw [List.take_append_eq_append_take, List.take_of_length_le (by omega)]
        by_contra hcon
        rw [Bool.not_eq_false] at hcon
        obtain ⟨_, h2⟩ := ciEq_append_split _ k1 _ hcon
        obtain ⟨m, hm⟩ : ∃ m, 8 - k1.length = m + 1 := ⟨8 - k1.length - 1, by omega⟩
        rw [hm, List.take_succ_cons] at h2
        cases hdd : "Learning".toList.drop k1.length with
        | nil =>
          have hlt : ("Learning".toList.drop k1.length).length = 8 - k1.length := by
            rw [List.length_drop]
            rfl
          rw [hdd] at hlt
          simp at hlt
          omega
        | cons a as =>
          rw [hdd] at h2
          have ha := ciEq_head _ _ _ _ h2
          have hfact : ∀ n, n < 8 →
              (("Learning".toList.drop n).headD 'x').toUpper ≠ ' ' := by decide
          have haeq : (("Learning".toList.drop k1.length).headD 'x') = a := by
            rw [hdd]
            rfl
          have ha2 := hfact k1.length (by omega)
          rw [haeq] at ha2
          rw [show (' ').toUpper = ' ' from by decide] at ha
          exact ha2 ha

set_option maxRecDepth 10000 in
theorem noCross_skillJoin (kws : List (List Char))
    (hkws : ∀ k ∈ kws, k ∈ skillPatterns.flatten) :
    ∀ kl ∈ skillPatterns.flatten, ∀ (p : Option Char) (v : List Char),
      v.length < kl.length →
      kwMatch p kl (v ++ ' ' :: pyJoin " ".toList kws) = false := by
  intro kl hkl p v hlen
  by_contra hcon
  rw [Bool.not_eq_false] at hcon
  rw [kwMatch, Bool.and_eq_true, Bool.and_eq_true] at hcon
  obtain ⟨⟨hce, _⟩, _⟩ := hcon
  have hsplit : (v ++ ' ' :: pyJoin " ".toList kws).take kl.length =
      v ++ (' ' :: pyJoin " ".toList kws).take (kl.length - v.length) := by
    rw [List.take_append_eq_append_take, List.take_of_length_le (le_of_lt hlen)]
  rw [hsplit] at hce
  obtain ⟨_, hdrop⟩ := ciEq_append_split kl v _ hce
  obtain ⟨m, hm⟩ : ∃ m, kl.length - v.length = m + 1 :=
    ⟨kl.length - v.length - 1, by omega⟩
  rw [hm, List.take_succ_cons] at hdrop
  have hdeq := List.drop_eq_getElem_cons hlen
  rw [hdeq, ciEq, Bool.and_eq_true] at hdrop
  obtain ⟨hsp, hlrn⟩ := hdrop
  have hsp1 : kl[v.length].toUpper = ' ' := by
    have := of_decide_eq_true hsp
    rw [show (' ').toUpper = ' ' from by decide] at this
    exact this
  have hsp2 : kl[v.length]?.map Char.toUpper = some ' ' := by
    rw [List.getElem?_eq_getElem hlen, Option.map_some', hsp1]
  have hfact1 : ∀ kl2 ∈ skillPatterns.flatten, ∀ n, n < kl2.length →
      kl2[n]?.map Char.toUpper = some ' ' →
      kl2.drop (n+1) = "Learning".toList ∧ kl2.length - n - 1 = 8 := by decide
  obtain ⟨hdrop8, hlen8⟩ := hfact1 kl hkl v.length hlen hsp2
  have hm8 : m = 8 := by omega
  subst hm8
  rw [hdrop8] at hlrn
  have hfalse := learning_not_at_join kws hkws
  rw [hlrn] at hfalse
  exact Bool.noConfusion hfalse

theorem kwMatch_append (p : Option Char) (k v u : List Char)
    (hl : k.length ≤ v.length) :
    kwMatch p k (v ++ ' ' :: u) = kwMatch p k v := by
  rw [kwMatch, kwMatch]
  rw [List.take_append_of_le_length hl]
  have hb : optWord ((v ++ ' ' :: u)[k.length]?) = optWord (v[k.length]?) := by
    rcases Nat.lt_or_ge k.length v.length with hlt | hge
    · rw [List.getElem?_append_left hlt]
    · have heq : k.length = v.length := le_antisymm hl hge
      have h1 : (v ++ ' ' :: u)[v.length]? = some ' ' := by
        rw [List.getElem?_append_right (le_refl _)]
        simp
      have h2 : v[v.length]? = (none : Option Char) :=
        List.getElem?_eq_none (le_refl _)
      rw [heq, h1, h2]
      decide
  rw [hb]

theorem firstKwMatch_some (kws : List (List Char)) (p : Option Char) (s k : List Char)
    (h : firstKwMatch kws p s = some k) : k ∈ kws ∧ kwMatch p k s = true := by
  induction kws with
  | nil => simp [firstKwMatch] at h
  | cons k1 rest ih =>
    rw [firstKwMatch] at h
    by_cases hm : kwMatch p k1 s = true
    · rw [if_pos hm] at h
      have heq := Option.some.inj h
      subst heq
      exact ⟨List.mem_cons_self _ _, hm⟩
    · rw [if_neg hm] at h
      obtain ⟨h1, h2⟩ := ih h
      exact ⟨List.mem_cons_of_mem _ h1, h2⟩

theorem firstKwMatch_append (kws : List (List Char)) (p : Option Char) (v u : List Char)
    (hnc : ∀ k ∈ kws, ∀ (q : Option Char) (w : List Char),
      w.length < k.length → kwMatch q k (w ++ ' ' :: u) = false) :
    firstKwMatch kws p (v ++ ' ' :: u) = firstKwMatch kws p v := by
  induction kws with
  | nil => rfl
  | cons k rest ih =>
    rw [firstKwMatch, firstKwMatch]
    rcases le_or_lt k.length v.length with hl | hl
    · rw [kwMatch_append p k v u hl]
      by_cases hm : kwMatch p k v = true
      · rw [if_pos hm, if_pos hm]
      · rw [if_neg hm, if_neg hm]
        exact ih (fun k2 hk2 => hnc k2 (List.mem_cons_of_mem _ hk2))
    · have hext : kwMatch p k (v ++ ' ' :: u) = false :=
        hnc k (List.mem_cons_self _ _) p v hl
      have horig : kwMatch p k v = false := by
        rw [kwMatch]
      
        have hce : ciEq k (v.take k.length) = false := by
          by_cases hc2 : ciEq k (v.take k.length) = true
          · have hlen2 := ciEq_length _ _ hc2
            rw [List.length_take] at hlen2
            omega
          · simpa using hc2
        rw [hce]
        rfl
      rw [hext, horig]
      rw [if_neg (by simp), if_neg (by simp)]
      exact ih (fun k2 hk2 => hnc k2 (List.mem_cons_of_mem _ hk2))

theorem reFindAll_append_incl (kws : List (List Char)) (u : List Char)
    (hnc : ∀ k ∈ kws, ∀ (q : Option Char) (w : List Char),
      w.length < k.length → kwMatch q k (w ++ ' ' :: u) = false) :
    ∀ (n : ℕ) (t : List Char), t.length ≤ n → ∀ (p : Option Char) (x : List Char),
      x ∈ reFindAll kws p t → x ∈ reFindAll kws p (t ++ ' ' :: u) := by
  intro n
  induction n with
  | zero =>
    intro t hlen p x hx
    have ht : t = [] := List.length_eq_zero.mp (Nat.le_zero.mp hlen)
    subst ht
    simp [reFindAll] at hx
  | succ n ih =>
    intro t hlen p x hx
    cases t with
    | nil => simp [reFindAll] at hx
    | cons c rest =>
      simp only [List.length_cons] at hlen
      have hfeq : firstKwMatch kws p ((c :: rest) ++ ' ' :: u) =
          firstKwMatch kws p (c :: rest) :=
        firstKwMatch_append kws p (c :: rest) u hnc
      rw [List.cons_append] at hfeq
      rw [reFindAll] at hx
      rw [List.cons_append, reFindAll]
      cases hf : firstKwMatch kws p (c :: rest) with
      | none =>
        rw [hf] at hx
        rw [hf] at hfeq
        rw [hfeq]
        exact ih rest (by omega) (some c) x hx
      | some k =>
        rw [hf] at hx
        rw [hf] at hfeq
        rw [hfeq]
        replace hx : x ∈ (List.take k.length (c :: rest)) ::
            reFindAll kws (List.take k.length (c :: rest)).getLast?
              (List.drop (k.length - 1) rest) := hx
        obtain ⟨hkmem, hkm⟩ := firstKwMatch_some kws p (c :: rest) k hf
        have hklen : k.length ≤ rest.length + 1 := by
          rw [kwMatch, Bool.and_eq_true, Bool.and_eq_true] at hkm
          have hlen2 := ciEq_length _ _ hkm.1.1
          rw [List.length_take, List.length_cons] at hlen2
          omega
        have htake : (c :: (rest ++ ' ' :: u)).take k.length =
            (c :: rest).take k.length := by
          rw [← List.cons_append]
          exact List.take_append_of_le_length (by simpa using hklen)
        have hdrop : (rest ++ ' ' :: u).drop (k.length - 1) =
            rest.drop (k.length - 1) ++ ' ' :: u :=
          List.drop_append_of_le_length (by omega)
        show x ∈ (List.take k.length (c :: (rest ++ ' ' :: u))) ::
            reFindAll kws (List.take k.length (c :: (rest ++ ' ' :: u))).getLast?
              (List.drop (k.length - 1) (rest ++ ' ' :: u))
        rw [htake, hdrop]
        rcases List.mem_cons.mp hx with h1 | h1
        · rw [h1]
          exact List.mem_cons_self _ _
        · refine List.mem_cons_of_mem _ ?_
          refine ih (rest.drop (k.length - 1)) ?_ _ x h1
          rw [List.length_drop]
          omega

theorem extract_skills_append_incl (t : List Char) (kws : List (List Char))
    (hkws : ∀ k ∈ kws, k ∈ skillPatterns.flatten) :
    extract_skills_from_text t ⊆
      extract_skills_from_text (t ++ ' ' :: pyJoin " ".toList kws) := by
  intro x hx
  rw [extract_skills_from_text, List.mem_toFinset, List.mem_flatten] at hx
  obtain ⟨l, hl, hxl⟩ := hx
  rw [List.mem_map] at hl
  obtain ⟨kwsP, hkwsP, hleq⟩ := hl
  subst hleq
  rw [extract_skills_from_text, List.mem_toFinset, List.mem_flatten]
  refine ⟨reFindAll kwsP none (t ++ ' ' :: pyJoin " ".toList kws),
    List.mem_map.mpr ⟨kwsP, hkwsP, rfl⟩, ?_⟩
  refine reFindAll_append_incl kwsP (pyJoin " ".toList kws) ?_ t.length t
    (le_refl _) none x hxl
  intro k hk q w hlen
  exact noCross_skillJoin kws hkws k (List.mem_flatten.mpr ⟨kwsP, hkwsP, hk⟩) q w hlen

theorem prefOf_iff (u v : List Char) : u.isPrefixOf v = true ↔ u <+: v :=
  List.isPrefixOf_iff_prefix

theorem subOf_iff (u s : List Char) :
    subOf u s = true ↔ ∃ i, u.isPrefixOf (s.drop i) = true := by
  induction s with
  | nil =>
    unfold subOf
    simp
  | cons c t ih =>
    unfold subOf
    simp only [Bool.or_eq_true]
    constructor
    · rintro (h | h)
      · exact ⟨0, by simpa using h⟩
      · obtain ⟨i, hi⟩ := ih.mp h
        exact ⟨i + 1, by simpa [List.drop_succ_cons] using hi⟩
    · rintro ⟨i, hi⟩
      cases i with
      | zero => exact Or.inl (by simpa using hi)
      | succ j => exact Or.inr (ih.mpr ⟨j, by simpa [List.drop_succ_cons] using hi⟩)

theorem subOf_of_occurs (u s : List Char) (i : ℕ)
    (h : u.isPrefixOf (s.drop i) = true) : subOf u s = true :=
  (subOf_iff u s).mpr ⟨i, h⟩

theorem isPrefixOf_map_upper (u v : List Char) (h : u.isPrefixOf v = true) :
    (pyUpper u).isPrefixOf (pyUpper v) = true := by
  rw [prefOf_iff] at h ⊢
  exact List.IsPrefix.map Char.toUpper h

/-- An occurrence of `u` at position `i` gives an occurrence of its
upper-casing at the same position of the upper-cased string. -/
theorem occurs_upper (u s : List Char) (i : ℕ) (h : u.isPrefixOf (s.drop i) = true) :
    (pyUpper u).isPrefixOf ((pyUpper s).drop i) = true := by
  have hmap := isPrefixOf_map_upper u (s.drop i) h
  unfold pyUpper at hmap ⊢
  rwa [List.map_drop] at hmap

theorem occ_lt_length (u s : List Char) (j : ℕ) (hu : u ≠ [])
    (h : u.isPrefixOf (s.drop j) = true) : j < s.length := by
  by_contra hge
  push_neg at hge
  rw [List.drop_eq_nil_of_le hge] at h
  cases u with
  | nil => exact hu rfl
  | cons x xs => simp [List.isPrefixOf] at h

theorem pyUpper_length (s : List Char) : (pyUpper s).length = s.length := by
  simp [pyUpper]

theorem pyUpper_append (x y : List Char) : pyUpper (x ++ y) = pyUpper x ++ pyUpper y := by
  simp [pyUpper]

theorem pyReplace_cons (c : Char) (t u new : List Char) :
    pyReplace (c :: t) u new =
      if u ≠ [] ∧ u.isPrefixOf (c :: t) = true then
        new ++ pyReplace ((c :: t).drop u.length) u new
      else c :: pyReplace t u new := by
  conv_lhs => unfold pyReplace

theorem pyReplace_no_occur (s u new : List Char)
    (h : ∀ i, ¬ u.isPrefixOf (s.drop i) = true) : pyReplace s u new = s := by
  induction s with
  | nil => simp [pyReplace]
  | cons c t ih =>
    have h0 : ¬ u.isPrefixOf (c :: t) = true := by simpa using h 0
    rw [pyReplace_cons, if_neg (fun hc => h0 hc.2),
      ih (fun i => by simpa [List.drop_succ_cons] using h (i + 1))]

theorem pyReplace_first (u b new : List Char) (hu : u ≠ []) :
    pyReplace (u ++ b) u new = new ++ pyReplace b u new := by
  cases u with
  | nil => exact absurd rfl hu
  | cons x xs =>
    show pyReplace (x :: (xs ++ b)) (x :: xs) new = new ++ pyReplace b (x :: xs) new
    rw [pyReplace_cons, if_pos ⟨hu, (prefOf_iff _ _).mpr ⟨b, by simp⟩⟩]
    have hdrop : (x :: (xs ++ b)).drop (x :: xs).length = b := by
      simp only [List.length_cons, List.drop_succ_cons]
      exact List.drop_left xs b
    rw [hdrop]

theorem pyReplace_skip (a rest u new : List Char)
    (ha : ∀ j < a.length, ¬ u.isPrefixOf ((a ++ rest).drop j) = true) :
    pyReplace (a ++ rest) u new = a ++ pyReplace rest u new := by
  induction a with
  | nil => simp
  | cons c a' ih =>
    have h0 : ¬ u.isPrefixOf (c :: (a' ++ rest)) = true := by
      simpa using ha 0 (by simp)
    show pyReplace (c :: (a' ++ rest)) u new = c :: (a' ++ pyReplace rest u new)
    rw [pyReplace_cons, if_neg (fun hc => h0 hc.2),
      ih (fun j hj => by
        simpa [List.drop_succ_cons] using ha (j + 1) (by simpa using Nat.succ_lt_succ hj))]

theorem pyReplace_single_occ (a u b : List Char) (hu : u ≠ [])
    (ha : ∀ j < a.length, ¬ u.isPrefixOf ((a ++ (u ++ b)).drop j) = true)
    (hb : ∀ i, ¬ u.isPrefixOf (b.drop i) = true) :
    pyReplace (a ++ (u ++ b)) u [] = a ++ b := by
  rw [pyReplace_skip a (u ++ b) u [] ha, pyReplace_first u b [] hu,
      pyReplace_no_occur b u [] hb]
  simp

/-- If `u` is a prefix of `v ++ w` and has the same length as `v`, it is `v`. -/
theorem prefix_same_length_eq (u v w : List Char) (hlen : u.length = v.length)
    (h : u.isPrefixOf (v ++ w) = true) : u = v := by
  rw [prefOf_iff] at h
  obtain ⟨t, ht⟩ := h
  have h1 : (u ++ t).take u.length = (v ++ w).take u.length := by rw [ht]
  rwa [List.take_left, hlen, List.take_left] at h1

/-- An occurrence inside `y` gives an occurrence inside `x ++ y`. -/
theorem occurs_in_right (u x y : List Char) (i : ℕ)
    (h : u.isPrefixOf (y.drop i) = true) : subOf u (x ++ y) = true := by
  apply subOf_of_occurs u (x ++ y) (x.length + i)
  rwa [← List.drop_drop, List.drop_left]

theorem infix_append_left (y : List Char) {x z : List Char} (h : x <:+: z) :
    x <:+: y ++ z := by
  obtain ⟨s, t, hst⟩ := h
  exact ⟨y ++ s, t, by rw [← hst]; simp [List.append_assoc]⟩

theorem infix_of_subOf (u s : List Char) (h : subOf u s = true) : u <:+: s := by
  obtain ⟨i, hi⟩ := (subOf_iff u s).mp h
  rw [prefOf_iff] at hi
  exact hi.isInfix.trans (List.drop_suffix i s).isInfix

theorem join_step (sep x y : List Char) (ys : List (List Char)) :
    pyJoin sep (x :: y :: ys) = x ++ sep ++ pyJoin sep (y :: ys) := rfl

theorem block_infix_of_mem (c : List Char) (cats : List (List Char)) (h : c ∈ cats) :
    formatExampleBlock c <:+: get_format_example cats := by
  induction cats with
  | nil => cases h
  | cons x xs ih =>
    rcases List.mem_cons.mp h with rfl | hmem
    · cases xs with
      | nil => exact List.infix_refl _
      | cons y ys =>
        exact ⟨[], "\n\n".toList ++ get_format_example (y :: ys), by
          show [] ++ formatExampleBlock c ++ _ = _
          simp [get_format_example, join_step, List.append_assoc]⟩
    · cases xs with
      | nil => cases hmem
      | cons y ys =>
        have hstep : get_format_example (x :: y :: ys) =
            (formatExampleBlock x ++ "\n\n".toList) ++ get_format_example (y :: ys) := by
          simp [get_format_example, join_step, List.append_assoc]
        rw [hstep]
        exact infix_append_left _ (ih hmem)

theorem marker_in_block (m c : List Char)
    (hm : subOf m (":\n1. [EASY] [Question text]\n2. [MEDIUM] [Question text]\n3. [HARD] [Question text]".toList) = true) :
    m <:+: formatExampleBlock c := by
  unfold formatExampleBlock
  exact infix_append_left _ (infix_of_subOf _ _ hm)

/-- The format example is embedded verbatim in the prompt. -/
theorem example_infix_prompt (resume_text : List Char) (question_count : ℕ)
    (difficulty_filter category_filter : List (List Char)) :
    get_format_example category_filter <:+:
      create_question_prompt resume_text question_count difficulty_filter category_filter := by
  unfold create_question_prompt
  apply infix_append_left
  apply infix_append_left
  apply infix_append_left
  apply infix_append_left
  apply infix_append_left
  apply infix_append_left
  apply infix_append_left
  exact (List.prefix_append _ _).isInfix

/-- C6 (amended): for every non-empty category filter, the format example the
prompt builder embeds in the prompt consists of one block per requested
category — the category upper-cased followed by a colon and three numbered
lines tagged with the fixed markers — and the three markers `[EASY]`,
`[MEDIUM]`, `[HARD]` all appear in it, whatever the difficulty filter is: the
markers are not drawn from `difficulty_filter` (see the counterexample). -/
theorem format_example_embedded (resume_text : List Char) (question_count : ℕ)
    (difficulty_filter category_filter : List (List Char))
    (hc : category_filter ≠ []) :
    (get_format_example category_filter <:+:
      create_question_prompt resume_text question_count difficulty_filter category_filter) ∧
    (∀ c ∈ category_filter, formatExampleBlock c <:+: get_format_example category_filter) ∧
    ("[EASY]".toList <:+: get_format_example category_filter) ∧
    ("[MEDIUM]".toList <:+: get_format_example category_filter) ∧
    ("[HARD]".toList <:+: get_format_example category_filter) := by
  obtain ⟨c0, cats0, rfl⟩ : ∃ c0 cats0, category_filter = c0 :: cats0 := by
    cases category_filter with
    | nil => exact absurd rfl hc
    | cons c0 cats0 => exact ⟨c0, cats0, rfl⟩
  have hblock := block_infix_of_mem c0 (c0 :: cats0) (by simp)
  refine ⟨example_infix_prompt _ _ _ _, fun c h => block_infix_of_mem c _ h, ?_, ?_, ?_⟩
  · exact (marker_in_block _ c0 (by decide)).trans hblock
  · exact (marker_in_block _ c0 (by decide)).trans hblock
  · exact (marker_in_block _ c0 (by decide)).trans hblock

/-- Witness for C6 at a concrete request. -/
theorem format_example_embedded_witness :
    (get_format_example ["Technical Skills".toList] <:+:
      create_question_prompt "R".toList 5 ["Easy".toList] ["Technical Skills".toList]) ∧
    (∀ c ∈ ["Technical Skills".toList], formatExampleBlock c <:+:
      get_format_example ["Technical Skills".toList]) ∧
    ("[EASY]".toList <:+: get_format_example ["Technical Skills".toList]) ∧
    ("[MEDIUM]".toList <:+: get_format_example ["Technical Skills".toList]) ∧
    ("[HARD]".toList <:+: get_format_example ["Technical Skills".toList]) :=
  format_example_embedded "R".toList 5 ["Easy".toList] ["Technical Skills".toList]
    (by decide)

/-- C6 counterexample: with difficulty filter `["Easy"]` the embedded format
example still contains the marker `[MEDIUM]`, which is outside the filter, so
the markers are not drawn only from `difficulty_filter`. -/
theorem format_example_ignores_difficulty :
    ("[MEDIUM]".toList <:+: get_format_example ["Technical Skills".toList]) ∧
    ("[MEDIUM]".toList <:+:
      create_question_prompt "R".toList 5 ["Easy".toList] ["Technical Skills".toList]) ∧
    ¬ ("Medium".toList ∈ (["Easy".toList] : List (List Char))) := by
  have h1 : "[MEDIUM]".toList <:+: get_format_example ["Technical Skills".toList] :=
    (marker_in_block _ _ (by decide)).trans
      (block_infix_of_mem "Technical Skills".toList _ (by simp))
  exact ⟨h1, h1.trans (example_infix_prompt _ _ _ _), by decide⟩

/-- Removing first the uppercase then the lowercase spelling of a marker from
`a ++ (m ++ b)`, where `m` is one of the two spellings, the marker occurs
nowhere else (case-insensitively), and removing it creates no new occurrence,
leaves exactly `a ++ b`. -/
theorem double_replace_removes (U l m a b : List Char)
    (hU : U ≠ []) (hl : l ≠ []) (hUl : U ≠ l)
    (hupU : pyUpper U = U) (hupl : pyUpper l = U) (hupm : pyUpper m = U)
    (hlen : U.length = l.length)
    (huniq : ∀ j, U.isPrefixOf ((pyUpper (a ++ (m ++ b))).drop j) = true → j = a.length)
    (hrest : subOf U (pyUpper (a ++ b)) = false)
    (hm : m = U ∨ m = l) :
    pyReplace (pyReplace (a ++ (m ++ b)) U []) l [] = a ++ b := by
  have hnotrest : ∀ u : List Char, pyUpper u = U →
      ∀ i, ¬ u.isPrefixOf ((a ++ b).drop i) = true := by
    intro u hup i hocc
    have h2 := occurs_upper u (a ++ b) i hocc
    rw [hup] at h2
    have h3 := subOf_of_occurs U (pyUpper (a ++ b)) i h2
    rw [hrest] at h3
    exact Bool.false_ne_true h3
  have hbnone : ∀ u : List Char, pyUpper u = U → ∀ i, ¬ u.isPrefixOf (b.drop i) = true := by
    intro u hup i hocc
    have h2 := occurs_upper u b i hocc
    rw [hup] at h2
    have h3 : subOf U (pyUpper (a ++ b)) = true := by
      rw [pyUpper_append]
      exact occurs_in_right U (pyUpper a) (pyUpper b) i h2
    rw [hrest] at h3
    exact Bool.false_ne_true h3
  have hanone : ∀ u : List Char, pyUpper u = U →
      ∀ j < a.length, ¬ u.isPrefixOf ((a ++ (m ++ b)).drop j) = true := by
    intro u hup j hj hocc
    have h2 := occurs_upper u (a ++ (m ++ b)) j hocc
    rw [hup] at h2
    exact absurd (huniq j h2) (Nat.ne_of_lt hj)
  rcases hm with hm | hm
  · subst m
    rw [pyReplace_single_occ a U b hU (hanone U hupU) (hbnone U hupU)]
    exact pyReplace_no_occur (a ++ b) l [] (hnotrest l hupl)
  · subst m
    rw [pyReplace_no_occur (a ++ (l ++ b)) U [] ?_, pyReplace_single_occ a l b hl
      (hanone l hupl) (hbnone l hupl)]
    intro i hocc
    have h2 := occurs_upper U (a ++ (l ++ b)) i hocc
    rw [hupU] at h2
    have hi := huniq i h2
    subst hi
    rw [List.drop_left] at hocc
    exact hUl (prefix_same_length_eq U l b hlen hocc)

/-- C3 (amended): for a payload `a ++ (m ++ b)` where `m` is the all-uppercase
or all-lowercase spelling of one bracketed marker, no other marker occurs
(case-insensitively), the marker occurs only at this position, and removing it
creates no new occurrence, the classifier returns the matching label, and the
cleaned text is the remainder `a ++ b` subjected to the unconditional cleanup
(strip, removal of all square brackets, whitespace normalisation).  Mixed-case
spellings such as `[Easy]` are excluded: for those only the brackets are
removed and the word survives (see the counterexample). -/
theorem single_marker_classified (d : DifficultyKind) (m a b : List Char)
    (hm : m = markerUpper d ∨ m = markerLower d)
    (hothers : ∀ e : DifficultyKind, e ≠ d →
      subOf (markerUpper e) (pyUpper (a ++ (m ++ b))) = false)
    (huniq : ∀ j < (a ++ (m ++ b)).length,
      (markerUpper d).isPrefixOf ((pyUpper (a ++ (m ++ b))).drop j) = true →
        j = a.length)
    (hrest : subOf (markerUpper d) (pyUpper (a ++ b)) = false) :
    extract_difficulty_and_clean (a ++ (m ++ b)) =
      (some (difficultyLabel d), some (finalClean (pyStrip (a ++ b)))) := by
  have hUne : markerUpper d ≠ [] := by cases d <;> decide
  have huniq' : ∀ j, (markerUpper d).isPrefixOf ((pyUpper (a ++ (m ++ b))).drop j) = true →
      j = a.length := by
    intro j hocc
    refine huniq j ?_ hocc
    have := occ_lt_length _ _ j hUne hocc
    rwa [pyUpper_length] at this
  have hupm : pyUpper m = markerUpper d := by
    rcases hm with h | h <;> subst m <;> cases d <;> decide
  have hdet : subOf (markerUpper d) (pyUpper (a ++ (m ++ b))) = true := by
    apply subOf_of_occurs _ _ a.length
    rw [pyUpper_append, pyUpper_append, List.drop_left' (pyUpper_length a), ← hupm]
    exact (prefOf_iff _ _).mpr ⟨pyUpper b, rfl⟩
  cases d with
  | easy =>
    simp only [markerUpper, markerLower, difficultyLabel] at hdet hupm huniq' hrest hm ⊢
    unfold extract_difficulty_and_clean
    rw [if_pos hdet,
      double_replace_removes "[EASY]".toList "[easy]".toList m a b (by decide) (by decide)
        (by decide) (by decide) (by decide) hupm (by decide) huniq' hrest hm]
  | hard =>
    have hne : subOf "[EASY]".toList (pyUpper (a ++ (m ++ b))) = false := by
      have := hothers .easy (by decide)
      simpa [markerUpper] using this
    simp only [markerUpper, markerLower, difficultyLabel] at hdet hupm huniq' hrest hm ⊢
    unfold extract_difficulty_and_clean
    rw [if_neg (ne_true_of_eq_false hne), if_pos hdet,
      double_replace_removes "[HARD]".toList "[hard]".toList m a b (by decide) (by decide)
        (by decide) (by decide) (by decide) hupm (by decide) huniq' hrest hm]
  | medium =>
    have hne1 : subOf "[EASY]".toList (pyUpper (a ++ (m ++ b))) = false := by
      have := hothers .easy (by decide)
      simpa [markerUpper] using this
    have hne2 : subOf "[HARD]".toList (pyUpper (a ++ (m ++ b))) = false := by
      have := hothers .hard (by decide)
      simpa [markerUpper] using this
    simp only [markerUpper, markerLower, difficultyLabel] at hdet hupm huniq' hrest hm ⊢
    unfold extract_difficulty_and_clean
    rw [if_neg (ne_true_of_eq_false hne1), if_neg (ne_true_of_eq_false hne2), if_pos hdet,
      double_replace_removes "[MEDIUM]".toList "[medium]".toList m a b (by decide) (by decide)
        (by decide) (by decide) (by decide) hupm (by decide) huniq' hrest hm]

/-- Witness for the amended C3 at the payload `"[EASY] What is a list?"`. -/
theorem single_marker_classified_witness :
    extract_difficulty_and_clean ([] ++ ("[EASY]".toList ++ " What is a list?".toList)) =
      (some "Easy".toList, some "What is a list?".toList) := by
  rw [single_marker_classified .easy "[EASY]".toList [] " What is a list?".toList
      (Or.inl rfl)
      (by intro e he; cases e
          · exact absurd rfl he
          · decide
          · decide)
      (by decide) (by decide)]
  simp [finalClean, difficultyLabel, pyStrip, pyLstrip, pyRstrip, pyReplace, pySplitWs,
    pySplitWsAux, pyJoin, pyIsSpace]

/-- C3 counterexample: the mixed-case marker `[Easy]` is recognised for the
label but is not stripped from the text — only its brackets are removed, the
word `Easy` survives, so the cleaned text is not the payload with the one
marker removed. -/
theorem mixed_case_marker_kept :
    extract_difficulty_and_clean "[Easy] What is a list?".toList =
      (some "Easy".toList, some "Easy What is a list?".toList) ∧
    (extract_difficulty_and_clean "[Easy] What is a list?".toList).2 ≠
      some "What is a list?".toList := by
  have h : extract_difficulty_and_clean "[Easy] What is a list?".toList =
      (some "Easy".toList, some "Easy What is a list?".toList) := by
    simp [extract_difficulty_and_clean, pyUpper, subOf, pyReplace, pyStrip, pyLstrip,
      pyRstrip, finalClean, pySplitWs, pySplitWsAux, pyJoin, pyIsSpace]
  exact ⟨h, by rw [h]; decide⟩

/-- `pyFind` returns an actual occurrence. -/
theorem pyFind_some_occurs (u s : List Char) (i : ℕ) (h : pyFind u s = some i) :
    u.isPrefixOf (s.drop i) = true := by
  induction s generalizing i with
  | nil =>
    unfold pyFind at h
    split at h
    · rename_i hp
      simp at h
      subst h
      simpa using hp
    · simp at h
  | cons c t ih =>
    unfold pyFind at h
    split at h
    · rename_i hp
      simp at h
      subst h
      simpa using hp
    · simp only [Option.map_eq_some'] at h
      obtain ⟨j, hj, hji⟩ := h
      subst hji
      simpa using ih j hj

/-- If `u` occurs in `s` as a substring then `pyFind` succeeds. -/
theorem subOf_pyFind (u s : List Char) (h : subOf u s = true) :
    ∃ i, pyFind u s = some i := by
  induction s with
  | nil =>
    unfold subOf at h
    simp only [Bool.or_eq_true] at h
    rcases h with h | h
    · exact ⟨0, by unfold pyFind; simp [h]⟩
    · simp at h
  | cons c t ih =>
    unfold subOf at h
    simp only [Bool.or_eq_true] at h
    by_cases hp : u.isPrefixOf (c :: t) = true
    · exact ⟨0, by unfold pyFind; simp [hp]⟩
    · have ht : subOf u t = true := by
        rcases h with h | h
        · exact absurd h hp
        · exact h
      obtain ⟨j, hj⟩ := ih ht
      exact ⟨j + 1, by unfold pyFind; simp [hp, hj]⟩

/-- C2: whenever the completion is not a well-formed JSON object — invalid
syntax or a wrong top-level type — the three Shape-A parse operations return
the empty triple (`[]`, `{}`, `[]`), each with a reported non-fatal error
(the boolean flag); the operations are total functions, so no exception
propagates to the caller. -/
theorem shape_a_decode_failure (s : List Char) (h : isJsonObj (jsonParse s) = false) :
    parse_questions s = (Json.arr [], true) ∧
    parse_insights s = (Json.obj [], true) ∧
    parse_ats_suggestions s = (Json.arr [], true) := by
  unfold parse_questions parse_insights parse_ats_suggestions
  cases hj : jsonParse s with
  | none => exact ⟨rfl, rfl, rfl⟩
  | some v =>
    rw [hj] at h
    cases v
    case obj kvs => exact absurd h (by simp [isJsonObj])
    all_goals exact ⟨rfl, rfl, rfl⟩

/-- Witness for C2 at the malformed completion `"[true]"` (an array, so a
wrong top-level type). -/
theorem shape_a_decode_failure_witness :
    isJsonObj (jsonParse "[true]".toList) = false ∧
    (parse_questions "[true]".toList = (Json.arr [], true) ∧
     parse_insights "[true]".toList = (Json.obj [], true) ∧
     parse_ats_suggestions "[true]".toList = (Json.arr [], true)) :=
  ⟨rfl, shape_a_decode_failure "[true]".toList rfl⟩

/-- C1 counterexample: on the Shape B completion of the claim, the response
parser does not return the two expected Questions — it returns the empty list
(with a reported error), because `_parse_questions` only decodes JSON. -/
theorem shape_b_counter :
    parse_questions
      "TECHNICAL SKILLS:\n1. [EASY] What is a list?\n2. [HARD] Design a cache".toList =
        (Json.arr [], true) ∧
    (parse_questions
      "TECHNICAL SKILLS:\n1. [EASY] What is a list?\n2. [HARD] Design a cache".toList).1 ≠
      Json.arr
        [Json.obj [("category".toList, Json.str "Technical Skills".toList),
                   ("difficulty".toList, Json.str "Easy".toList),
                   ("question".toList, Json.str "What is a list?".toList)],
         Json.obj [("category".toList, Json.str "Technical Skills".toList),
                   ("difficulty".toList, Json.str "Hard".toList),
                   ("question".toList, Json.str "Design a cache".toList)]] := by
  have h1 : parse_questions
      "TECHNICAL SKILLS:\n1. [EASY] What is a list?\n2. [HARD] Design a cache".toList =
        (Json.arr [], true) := rfl
  refine ⟨h1, ?_⟩
  rw [h1]
  simp

/-- C1 (amended): the response parser handles only the structured JSON shape;
the semi-structured header/numbered-line Shape B completion is not parsed —
all three sections degrade to empty with a reported error. -/
theorem shape_b_yields_empty :
    parse_questions
      "TECHNICAL SKILLS:\n1. [EASY] What is a list?\n2. [HARD] Design a cache".toList =
        (Json.arr [], true) ∧
    parse_insights
      "TECHNICAL SKILLS:\n1. [EASY] What is a list?\n2. [HARD] Design a cache".toList =
        (Json.obj [], true) ∧
    parse_ats_suggestions
      "TECHNICAL SKILLS:\n1. [EASY] What is a list?\n2. [HARD] Design a cache".toList =
        (Json.arr [], true) :=
  ⟨rfl, rfl, rfl⟩

/-- C4: when more than one bracketed difficulty marker is present
(case-insensitively), `_extract_difficulty_and_clean` resolves the label by
the fixed priority order Easy → Hard → Medium, regardless of the markers'
positions in the payload. -/
theorem multi_marker_priority (q : List Char)
    (h : (subOf "[EASY]".toList (pyUpper q) = true ∧
            subOf "[HARD]".toList (pyUpper q) = true) ∨
         (subOf "[EASY]".toList (pyUpper q) = true ∧
            subOf "[MEDIUM]".toList (pyUpper q) = true) ∨
         (subOf "[HARD]".toList (pyUpper q) = true ∧
            subOf "[MEDIUM]".toList (pyUpper q) = true)) :
    (extract_difficulty_and_clean q).1 =
      (if subOf "[EASY]".toList (pyUpper q) then some "Easy".toList
       else if subOf "[HARD]".toList (pyUpper q) then some "Hard".toList
       else some "Medium".toList) := by
  by_cases he : subOf "[EASY]".toList (pyUpper q) = true
  · unfold extract_difficulty_and_clean
    rw [if_pos he, if_pos he]
  · rcases h with ⟨h1, _⟩ | ⟨h1, _⟩ | ⟨h1, _⟩
    · exact absurd h1 he
    · exact absurd h1 he
    · unfold extract_difficulty_and_clean
      rw [if_neg he, if_neg he, if_pos h1, if_pos h1]

/-- Witness for C4 at a concrete two-marker payload. -/
theorem multi_marker_priority_witness :
    ((subOf "[EASY]".toList (pyUpper "q [easy] r [HARD]".toList) = true ∧
      subOf "[HARD]".toList (pyUpper "q [easy] r [HARD]".toList) = true)) ∧
    (extract_difficulty_and_clean "q [easy] r [HARD]".toList).1 = some "Easy".toList :=
  ⟨⟨by decide, by decide⟩,
    (multi_marker_priority "q [easy] r [HARD]".toList
      (Or.inl ⟨by decide, by decide⟩)).trans (by decide)⟩

/-- C5: with no bracketed marker anywhere (case-insensitively) and no bare
keyword `EASY`/`HARD`/`MEDIUM` starting within the first 20 characters,
`_extract_difficulty_and_clean` returns `(None, None)`. -/
theorem no_marker_none (q : List Char)
    (hb : subOf "[EASY]".toList (pyUpper q) = false ∧
          subOf "[HARD]".toList (pyUpper q) = false ∧
          subOf "[MEDIUM]".toList (pyUpper q) = false)
    (hk : ∀ i < 20, "EASY".toList.isPrefixOf ((pyUpper q).drop i) = false ∧
                    "HARD".toList.isPrefixOf ((pyUpper q).drop i) = false ∧
                    "MEDIUM".toList.isPrefixOf ((pyUpper q).drop i) = false) :
    extract_difficulty_and_clean q = (none, none) := by
  obtain ⟨hb1, hb2, hb3⟩ := hb
  have hcond : ∀ u : List Char,
      (∀ i < 20, u.isPrefixOf ((pyUpper q).drop i) = false) →
      (subOf u (pyUpper q) && decide (pyFindNeg u (pyUpper q) < 20)) = false := by
    intro u hu
    by_cases hs : subOf u (pyUpper q) = true
    · obtain ⟨i, hi⟩ := subOf_pyFind u _ hs
      have hocc := pyFind_some_occurs u _ i hi
      have hge : 20 ≤ i := by
        by_contra hlt
        push_neg at hlt
        rw [hu i hlt] at hocc
        exact absurd hocc (by simp)
      have : pyFindNeg u (pyUpper q) = (i : Int) := by simp [pyFindNeg, hi]
      simp only [this, Bool.and_eq_false_iff, decide_eq_false_iff_not, not_lt]
      right
      exact_mod_cast hge
    · simp only [Bool.and_eq_false_iff]
      left
      exact Bool.not_eq_true _ ▸ Bool.eq_false_iff.mpr hs
  have hkE : (subOf "EASY".toList (pyUpper q) &&
      decide (pyFindNeg "EASY".toList (pyUpper q) < 20)) = false :=
    hcond _ (fun i hi => ((hk i hi).1))
  have hkH : (subOf "HARD".toList (pyUpper q) &&
      decide (pyFindNeg "HARD".toList (pyUpper q) < 20)) = false :=
    hcond _ (fun i hi => ((hk i hi).2.1))
  have hkM : (subOf "MEDIUM".toList (pyUpper q) &&
      decide (pyFindNeg "MEDIUM".toList (pyUpper q) < 20)) = false :=
    hcond _ (fun i hi => ((hk i hi).2.2))
  have nb1 : ¬(subOf "[EASY]".toList (pyUpper q) = true) := by rw [hb1]; decide
  have nb2 : ¬(subOf "[HARD]".toList (pyUpper q) = true) := by rw [hb2]; decide
  have nb3 : ¬(subOf "[MEDIUM]".toList (pyUpper q) = true) := by rw [hb3]; decide
  have nk1 : ¬((subOf "EASY".toList (pyUpper q) &&
      decide (pyFindNeg "EASY".toList (pyUpper q) < 20)) = true) := by rw [hkE]; decide
  have nk2 : ¬((subOf "HARD".toList (pyUpper q) &&
      decide (pyFindNeg "HARD".toList (pyUpper q) < 20)) = true) := by rw [hkH]; decide
  have nk3 : ¬((subOf "MEDIUM".toList (pyUpper q) &&
      decide (pyFindNeg "MEDIUM".toList (pyUpper q) < 20)) = true) := by rw [hkM]; decide
  unfold extract_difficulty_and_clean
  rw [if_neg nb1, if_neg nb2, if_neg nb3, if_neg nk1, if_neg nk2, if_neg nk3]

/-- Witness for C5 at a concrete marker-free payload. -/
theorem no_marker_none_witness :
    extract_difficulty_and_clean "Tell me about yourself.".toList = (none, none) :=
  no_marker_none "Tell me about yourself.".toList (by decide) (by decide)

/-- `estimate_experience_level` returns one of the three fixed labels. -/
theorem estimate_experience_level_mem (text : List Char) :
    estimate_experience_level text = "Junior".toList ∨
    estimate_experience_level text = "Mid-level".toList ∨
    estimate_experience_level text = "Senior".toList := by
  unfold estimate_experience_level
  split
  · exact Or.inr (Or.inr rfl)
  · split
    · exact Or.inr (Or.inl rfl)
    · exact Or.inl rfl

theorem dictGetD_junior : dictGetD experienceScores "Junior".toList 50 = 30 := by decide

theorem dictGetD_mid : dictGetD experienceScores "Mid-level".toList 50 = 60 := by decide

theorem dictGetD_senior : dictGetD experienceScores "Senior".toList 50 = 90 := by decide

theorem experience_component_cases (text : List Char) :
    (calculate_resume_score text).experience_level = 30 ∨
    (calculate_resume_score text).experience_level = 60 ∨
    (calculate_resume_score text).experience_level = 90 := by
  have h : (calculate_resume_score text).experience_level =
      dictGetD experienceScores (estimate_experience_level text) 50 := rfl
  rcases estimate_experience_level_mem text with he | he | he <;> rw [h, he]
  · exact Or.inl dictGetD_junior
  · exact Or.inr (Or.inl dictGetD_mid)
  · exact Or.inr (Or.inr dictGetD_senior)

theorem sectionCount_le_four (text : List Char) : sectionCount text ≤ 4 := by
  have := List.length_filter_le
    (fun sec => subOf (pyLower sec) (pyLower text)) resumeSections
  simpa [resumeSections] using this

/-- C10: every component of `calculate_resume_score` lies in `[0, 100]`, and
the experience component is one of `30`, `60`, `90` because
`estimate_experience_level` only returns `"Junior"`, `"Mid-level"` or
`"Senior"`. -/
theorem calculate_resume_score_bounds (text : List Char) :
    (0 ≤ (calculate_resume_score text).skills_diversity ∧
      (calculate_resume_score text).skills_diversity ≤ 100) ∧
    (0 ≤ (calculate_resume_score text).experience_level ∧
      (calculate_resume_score text).experience_level ≤ 100) ∧
    (0 ≤ (calculate_resume_score text).completeness ∧
      (calculate_resume_score text).completeness ≤ 100) ∧
    (0 ≤ (calculate_resume_score text).overall ∧
      (calculate_resume_score text).overall ≤ 100) ∧
    ((calculate_resume_score text).experience_level = 30 ∨
      (calculate_resume_score text).experience_level = 60 ∨
      (calculate_resume_score text).experience_level = 90) ∧
    (estimate_experience_level text = "Junior".toList ∨
      estimate_experience_level text = "Mid-level".toList ∨
      estimate_experience_level text = "Senior".toList) := by
  have hskill2 : 0 ≤ (calculate_resume_score text).skills_diversity ∧
      (calculate_resume_score text).skills_diversity ≤ 100 := by
    have h : (calculate_resume_score text).skills_diversity =
        ((min ((extract_skills_from_text text).card * 5) 100 : ℕ) : ℚ) := rfl
    rw [h]
    constructor
    · positivity
    · exact_mod_cast Nat.min_le_right ((extract_skills_from_text text).card * 5) 100
  have hexp := experience_component_cases text
  have hexp2 : 0 ≤ (calculate_resume_score text).experience_level ∧
      (calculate_resume_score text).experience_level ≤ 100 := by
    rcases hexp with h | h | h <;> rw [h] <;> norm_num
  have hcomp : 0 ≤ (calculate_resume_score text).completeness ∧
      (calculate_resume_score text).completeness ≤ 100 := by
    have h : (calculate_resume_score text).completeness =
        ((sectionCount text : ℚ) / (resumeSections.length : ℚ)) * 100 := rfl
    have hlen : (resumeSections.length : ℚ) = 4 := by norm_num [resumeSections]
    have hc4 : (sectionCount text : ℚ) ≤ 4 := by
      exact_mod_cast sectionCount_le_four text
    rw [h, hlen]
    constructor
    · positivity
    · have : (sectionCount text : ℚ) / 4 * 100 = (sectionCount text : ℚ) * 25 := by ring
      rw [this]
      nlinarith
  refine ⟨hskill2, hexp2, hcomp, ?_, hexp, estimate_experience_level_mem text⟩
  have h : (calculate_resume_score text).overall =
      ((calculate_resume_score text).skills_diversity +
        (calculate_resume_score text).experience_level +
        (calculate_resume_score text).completeness) / 3 := rfl
  rw [h]
  constructor
  · linarith [hskill2.1, hexp2.1, hcomp.1]
  · linarith [hskill2.2, hexp2.2, hcomp.2]

/-- C7: `clean_text` is idempotent — running the whitespace/bullet
normalisation a second time on its own output changes nothing. -/
theorem clean_text_idempotent (x : List Char) :
    clean_text (clean_text x) = clean_text x := by
  obtain ⟨hnw, hbs, hds, hto, hnt, hbb, hnl, hbig⟩ := clean_text_props x
  exact clean_text_idem_aux (clean_text x) hnw hbs hds hto hnt hbb hnl hbig

/-- C8 (amended): the output of `clean_text` never begins with whitespace, and
any trailing whitespace is exactly the single space of a final "• " (the
bullet substitutions append a space after a bullet even at end of string, as
the counterexample shows; apart from that case the output also has no trailing
whitespace). -/
theorem clean_text_ends (x : List Char) :
    headNotWs (clean_text x) = true ∧ trailOk (clean_text x) = true :=
  ⟨(clean_text_props x).1, (clean_text_props x).2.2.2.1⟩

/-- C9: skill extraction and the skills-diversity score are monotonic under
appending recognised skill keywords (space-separated) to the text: the
extracted skill set does not shrink and the skills_diversity component of
calculate_resume_score does not decrease. -/
theorem skills_monotone (t : List Char) (kws : List (List Char))
    (hkws : ∀ k ∈ kws, k ∈ skillPatterns.flatten) :
    extract_skills_from_text t ⊆
        extract_skills_from_text (t ++ ' ' :: pyJoin " ".toList kws) ∧
      (calculate_resume_score t).skills_diversity ≤
        (calculate_resume_score (t ++ ' ' :: pyJoin " ".toList kws)).skills_diversity := by
  have hsub := extract_skills_append_incl t kws hkws
  refine ⟨hsub, ?_⟩
  have hcard : (extract_skills_from_text t).card ≤
      (extract_skills_from_text (t ++ ' ' :: pyJoin " ".toList kws)).card :=
    Finset.card_le_card hsub
  show skillsDiversityScore t ≤ skillsDiversityScore _
  rw [skillsDiversityScore, skillsDiversityScore]
  exact Nat.cast_le.mpr (min_le_min (mul_le_mul_right' hcard 5) (le_refl _))

/-- Witness for C9: appending the recognised keyword "Java" to a short resume
text keeps the extracted set monotone. -/
theorem skills_monotone_witness :
    (∀ k ∈ ["Java".toList], k ∈ skillPatterns.flatten) ∧
      (extract_skills_from_text "I know Python".toList ⊆
          extract_skills_from_text
            ("I know Python".toList ++ ' ' :: pyJoin " ".toList ["Java".toList]) ∧
        (calculate_resume_score "I know Python".toList).skills_diversity ≤
          (calculate_resume_score
            ("I know Python".toList ++ ' ' :: pyJoin " ".toList ["Java".toList])).skills_diversity) :=
  ⟨by decide, skills_monotone "I know Python".toList ["Java".toList] (by decide)⟩
